import Mathlib

/-!
Verification of the arXiv author-crawler (`main.py` and companions).

Strings are modelled as `List Char`; each Lean definition names and mirrors
the Python function it embeds.  Wall-clock durations are modelled as `ℚ`,
HTTP/network effects as oracle functions supplied to the embedded code.
-/

namespace GetArxiv

/-! ## Name normalization and matching (`main.py`, `normalize_tokens` / `author_matches`) -/

/-- A character matched by the regex class `[a-zA-Z]`. -/
def isAsciiAlpha (c : Char) : Bool :=
  ('a' ≤ c && c ≤ 'z') || ('A' ≤ c && c ≤ 'Z')

/-- Split a character list on spaces, dropping empty pieces (Python `str.split()`
restricted to the space-only separators produced by `normalize_tokens`). -/
def splitSpaces (l : List Char) : List (List Char) :=
  (l.splitOn ' ').filter (fun t => t ≠ [])

/-- Embeds `normalize_tokens`: every character outside `[a-zA-Z]` becomes a
space, letters are lowercased, and the result is split into words.  (The
source collapses runs of non-letters to one space, strips, lowercases and
then splits on whitespace; the token list produced is the same.) -/
def normalize_tokens (value : List Char) : List (List Char) :=
  splitSpaces (value.map (fun c => if isAsciiAlpha c then c.toLower else ' '))

/-- The given-name test from `author_matches`:
`given == first or given.startswith(first) or given == first_initial`.
Note `given.startswith(first)` holds when `first` is a prefix of `given`. -/
def given_ok (first given : List Char) : Bool :=
  given == first || first.isPrefixOf given || given == first.take 1

/-- The per-candidate body of the `for name in author_names` loop of
`author_matches` (lines 219-232 of `main.py`). -/
def name_matches (first : List Char) (last_tokens : List (List Char))
    (name : List Char) : Bool :=
  let tokens := normalize_tokens name
  if tokens.length < last_tokens.length + 1 then false
  else
    (tokens.drop (tokens.length - last_tokens.length) == last_tokens
        && given_ok first (tokens.headD []))
    || (tokens.take last_tokens.length == last_tokens
        && decide (tokens.length > last_tokens.length)
        && given_ok first (tokens.getD last_tokens.length []))

/-- Embeds `author_matches` from `main.py`. -/
def author_matches (first_name last_name : List Char)
    (author_names : List (List Char)) : Bool :=
  match normalize_tokens first_name, normalize_tokens last_name with
  | [], _ => false
  | _ :: _, [] => false
  | first :: _, last_tokens => author_names.any (name_matches first last_tokens)

/-- The given-name rule exactly as the claim words it: the candidate token
equals the target's first given-name token, is a prefix of it, or equals its
single-letter initial. -/
def claim1_given_rule (first given : List Char) : Bool :=
  given == first || given.isPrefixOf first || given == first.take 1

/-- The matching rule exactly as claim C1 words it: (a) the candidate's
trailing tokens equal the last-name sequence and the token immediately
preceding that sequence satisfies the given-name rule, or (b) the leading
tokens equal the last-name sequence and the token immediately following it
satisfies the rule. -/
def claim1_rule (first_name last_name name : List Char) : Bool :=
  let lt := normalize_tokens last_name
  let first := (normalize_tokens first_name).headD []
  let tokens := normalize_tokens name
  (lt.isSuffixOf tokens && decide (lt.length < tokens.length)
      && claim1_given_rule first (tokens.getD (tokens.length - lt.length - 1) []))
  || (lt.isPrefixOf tokens && decide (lt.length < tokens.length)
      && claim1_given_rule first (tokens.getD lt.length []))

/-- The amended matching rule: in case (a) it is the candidate's FIRST token
(not the token immediately preceding the last-name sequence) that is tested,
and the given-name test asks whether the target's first token is a prefix of
the candidate token (`given.startswith(first)`), not the reverse. -/
def claim1_rule_amended (first_name last_name name : List Char) : Bool :=
  let lt := normalize_tokens last_name
  let first := (normalize_tokens first_name).headD []
  let tokens := normalize_tokens name
  (lt.isSuffixOf tokens && decide (lt.length < tokens.length)
      && given_ok first (tokens.headD []))
  || (lt.isPrefixOf tokens && decide (lt.length < tokens.length)
      && given_ok first (tokens.getD lt.length []))

theorem matches_core_eq (G1 G2 : Bool) (lt toks : List (List Char)) :
    (if toks.length < lt.length + 1 then false
     else
       (toks.drop (toks.length - lt.length) == lt && G1)
       || (toks.take lt.length == lt && decide (toks.length > lt.length) && G2))
      = ((lt.isSuffixOf toks && decide (lt.length < toks.length) && G1)
        || (lt.isPrefixOf toks && decide (lt.length < toks.length) && G2)) := by
  have hsuff : (lt.isSuffixOf toks) = (toks.drop (toks.length - lt.length) == lt) := by
    apply Bool.eq_iff_iff.mpr
    simp only [List.isSuffixOf_iff_suffix, List.suffix_iff_eq_drop, beq_iff_eq]
    exact ⟨fun hh => hh.symm, fun hh => hh.symm⟩
  have hpref : (lt.isPrefixOf toks) = (toks.take lt.length == lt) := by
    apply Bool.eq_iff_iff.mpr
    simp only [List.isPrefixOf_iff_prefix, List.prefix_iff_eq_take, beq_iff_eq]
    exact ⟨fun hh => hh.symm, fun hh => hh.symm⟩
  rw [hsuff, hpref]
  by_cases h : toks.length < lt.length + 1
  · have hL : decide (lt.length < toks.length) = false := by
      simp only [decide_eq_false_iff_not]
      omega
    rw [if_pos h, hL]
    simp
  · have hL : decide (lt.length < toks.length) = true := by
      simp only [decide_eq_true_eq]
      omega
    rw [if_neg h, hL]
    simp

theorem name_matches_eq_amended (f l nm : List Char) (first : List Char)
    (fr : List (List Char)) (hf : normalize_tokens f = first :: fr) :
    name_matches first (normalize_tokens l) nm = claim1_rule_amended f l nm := by
  unfold name_matches claim1_rule_amended
  rw [hf]
  simp only [List.headD_cons]
  exact matches_core_eq _ _ _ _

/-- C1: the claim's characterisation of `author_matches` is wrong on two
points: in case (a) the source tests the candidate's FIRST token
(`tokens[0]`), not the token immediately preceding the trailing last-name
sequence, and the source's `given.startswith(first)` asks whether the
target's first token is a prefix of the candidate token, not the reverse.
Concretely, target (first="David", last="Silver") DOES match
"David Xavier Silver" in the code although the token preceding "Silver" is
"xavier", which fails the claim's rule. -/
theorem c1_claim_rule_counterexample :
    author_matches ("David".toList) ("Silver".toList)
        [("David Xavier Silver".toList)] = true
      ∧ claim1_rule ("David".toList) ("Silver".toList)
          ("David Xavier Silver".toList) = false := by
  constructor
  · decide
  · decide

/-- C1 (amended): provided both target names normalise to at least one
token, `author_matches` returns true iff some candidate satisfies the
amended rule: (a) the candidate has more tokens than the last-name
sequence, its trailing tokens equal that sequence, and its FIRST token
equals the target's first given-name token, extends it (the target token
is a prefix of it), or equals its single-letter initial; or (b) the
candidate's leading tokens equal the last-name sequence and the token
immediately following it satisfies the same rule. -/
theorem c1_author_matches_amended (f l : List Char) (names : List (List Char))
    (hf : normalize_tokens f ≠ []) (hl : normalize_tokens l ≠ []) :
    author_matches f l names = names.any (claim1_rule_amended f l) := by
  obtain ⟨first, fr, hf'⟩ := List.exists_cons_of_ne_nil hf
  obtain ⟨l0, lr, hl'⟩ := List.exists_cons_of_ne_nil hl
  have hbody : ∀ nm, name_matches first (normalize_tokens l) nm
      = claim1_rule_amended f l nm := fun nm =>
    name_matches_eq_amended f l nm first fr hf'
  simp only [author_matches, hf', hl']
  rw [← hl']
  exact congrArg names.any (funext hbody)

/-- C1 witness: the amended equivalence evaluated on the spec's own
example, target (first="David", last="Silver") against "Silver, David". -/
theorem c1_author_matches_amended_witness :
    author_matches ("David".toList) ("Silver".toList) [("Silver, David".toList)]
      = [("Silver, David".toList)].any
          (claim1_rule_amended ("David".toList) ("Silver".toList)) :=
  c1_author_matches_amended ("David".toList) ("Silver".toList)
    [("Silver, David".toList)] (by decide) (by decide)

/-- C10: when the target's first or last name normalises to zero tokens,
`author_matches` returns false for every candidate list.  (The embedding is
a total function, so no error can be raised.) -/
theorem c10_empty_target_tokens (f l : List Char) (names : List (List Char))
    (h : normalize_tokens f = [] ∨ normalize_tokens l = []) :
    author_matches f l names = false := by
  cases hf : normalize_tokens f with
  | nil => simp [author_matches, hf]
  | cons a as =>
    rcases h with h | h
    · rw [hf] at h
      exact absurd h (by simp)
    · simp [author_matches, hf, h]

/-- C10 witness: a fully numeric first name never matches. -/
theorem c10_empty_target_tokens_witness :
    author_matches ("1234".toList) ("Silver".toList)
      [("David Silver".toList)] = false :=
  c10_empty_target_tokens ("1234".toList) ("Silver".toList)
    [("David Silver".toList)] (Or.inl (by decide))

/-! ## Feed parsing (`main.py`, `parse_api_feed`)

XML is modelled at the boundary of `ElementTree`: a parsed document is a
`Feed` of element texts.  `parse_api_feed` is embedded on top of it. -/

/-- Python `str.strip()` restricted to the whitespace characters
`Char.isWhitespace` knows (space, tab, CR, LF). -/
def pstrip (l : List Char) : List Char :=
  ((l.dropWhile Char.isWhitespace).reverse.dropWhile Char.isWhitespace).reverse

/-- The `"/abs/"` marker used by `parse_api_feed`. -/
def absSep : List Char := ['/', 'a', 'b', 's', '/']

/-- Fuelled scanner behind `afterAbsGo`; the fuel only forces structural
recursion and is irrelevant once it is at least the list length. -/
def afterAbsFuel : Nat → List Char → Option (List Char)
  | 0, _ => none
  | _ + 1, [] => none
  | fuel + 1, c :: rest =>
    if absSep.isPrefixOf (c :: rest) then
      match afterAbsFuel fuel (rest.drop 4) with
      | some s => some s
      | none => some (rest.drop 4)
    else afterAbsFuel fuel rest

/-- Suffix of the list following the last occurrence of `"/abs/"` under
Python's left-to-right non-overlapping `str.split` semantics (`none` when
the marker does not occur); models `value.split("/abs/")[-1]`. -/
def afterAbsGo (l : List Char) : Option (List Char) :=
  afterAbsFuel l.length l

/-- Lines 145-146 of `main.py`: keep the value unchanged when `"/abs/"`
does not occur, otherwise take the final piece of the split. -/
def extract_arxiv_id (value : List Char) : List Char :=
  match afterAbsGo value with
  | some s => s
  | none => value

/-- Digits-only parse used to model Python `int()`. -/
def parseDigits (l : List Char) : Option Nat :=
  if l ≠ [] ∧ l.all Char.isDigit then
    some (l.foldl (fun a c => a * 10 + (c.toNat - 48)) 0)
  else none

/-- Models Python `int(text)` on an already-stripped string: an optional
sign followed by decimal digits; everything else raises `ValueError`,
modelled as `none`. -/
def parsePyInt (l : List Char) : Option Int :=
  match l with
  | '-' :: ds => (parseDigits ds).map (fun n => -(n : Int))
  | '+' :: ds => (parseDigits ds).map (fun n => (n : Int))
  | ds => (parseDigits ds).map (fun n => (n : Int))

/-- One `atom:entry` element as seen by `parse_api_feed`: the text of its
`atom:id` child (`none` when the child is missing) and the texts of its
authors' `atom:name` children (`none` when a name child is missing). -/
structure XmlEntry where
  idText : Option (List Char)
  authorNames : List (Option (List Char))

/-- A parsed feed document: the text of `opensearch:totalResults` (`none`
when the element is missing) and the entry elements in document order. -/
structure Feed where
  totalText : Option (List Char)
  entries : List XmlEntry

/-- The `Entry` dataclass of `main.py`. -/
structure Entry where
  arxiv_id : List Char
  authors : List (List Char)
deriving DecidableEq

/-- Lines 131-137 of `main.py`: the declared total, defaulting to 0 when
the element or its text is missing or unparseable. -/
def parse_total (t? : Option (List Char)) : Int :=
  match t? with
  | none => 0
  | some t => if t = [] then 0 else (parsePyInt (pstrip t)).getD 0

/-- Lines 141-154 of `main.py`: one entry; skipped (`none`) when the id
element is missing or its text is empty. -/
def parse_entry (e : XmlEntry) : Option Entry :=
  match e.idText with
  | none => none
  | some t =>
    if t = [] then none
    else
      some { arxiv_id := extract_arxiv_id (pstrip t),
             authors := e.authorNames.filterMap (fun a? =>
               match a? with
               | none => none
               | some a => if a = [] then none else some (pstrip a)) }

/-- Embeds `parse_api_feed` from `main.py` (on an already-parsed XML tree;
`ET.ParseError` is modelled where the function is consumed). -/
def parse_api_feed (f : Feed) : Int × List Entry :=
  (parse_total f.totalText, f.entries.filterMap parse_entry)

/-- Helper for `endsWithVN`: on a reversed string, zero or more digits and
then the letter v. -/
def revTailVN : List Char → Bool
  | [] => false
  | c :: rest => if c.isDigit then revTailVN rest else c == 'v'

/-- Helper for `endsWithVN`: on a reversed string, one or more digits and
then the letter v — the reversal of a `v\d+` match at the end. -/
def revVN : List Char → Bool
  | [] => false
  | c :: rest => c.isDigit && revTailVN rest

/-- Whether the string ends in a version suffix `v<digits>` (the regex
`v\d+$` of the spec and of `build_papers_csv.py` has a match). -/
def endsWithVN (l : List Char) : Bool :=
  revVN l.reverse

theorem cons_eq_absSep_append {c : Char} {rest : List Char}
    (hpre : absSep.isPrefixOf (c :: rest) = true) :
    c :: rest = absSep ++ rest.drop 4 := by
  have h := List.prefix_iff_eq_append.mp (List.isPrefixOf_iff_prefix.mp hpre)
  have hlen : absSep.length = 5 := by decide
  rw [hlen] at h
  rw [← h]
  congr 1

theorem afterAbsFuel_split (fuel : Nat) :
    ∀ l s, afterAbsFuel fuel l = some s → ∃ p, l = p ++ absSep ++ s := by
  induction fuel with
  | zero => intro l s h; simp [afterAbsFuel] at h
  | succ fuel ih =>
    intro l s h
    cases l with
    | nil => simp [afterAbsFuel] at h
    | cons c rest =>
      by_cases hpre : absSep.isPrefixOf (c :: rest)
      · rw [afterAbsFuel, if_pos hpre] at h
        cases hmatch : afterAbsFuel fuel (rest.drop 4) with
        | some s' =>
          rw [hmatch] at h
          obtain rfl : s' = s := by injection h
          obtain ⟨p, hp⟩ := ih (rest.drop 4) s' hmatch
          refine ⟨absSep ++ p, ?_⟩
          rw [cons_eq_absSep_append hpre, hp]
          simp
        | none =>
          rw [hmatch] at h
          obtain rfl : rest.drop 4 = s := by injection h
          exact ⟨[], by simpa using cons_eq_absSep_append hpre⟩
      · rw [afterAbsFuel, if_neg hpre] at h
        obtain ⟨p, hp⟩ := ih rest s h
        exact ⟨c :: p, by simp [hp]⟩

theorem afterAbsGo_split (v : List Char) :
    ∀ s, afterAbsGo v = some s → ∃ p, v = p ++ absSep ++ s :=
  afterAbsFuel_split v.length v

theorem revTailVN_of_append_slash (x w : List Char)
    (h : revTailVN (x ++ '/' :: w) = true) : revTailVN x = true := by
  induction x with
  | nil => simp [revTailVN] at h
  | cons c x' ih =>
    by_cases hc : c.isDigit
    · rw [List.cons_append, revTailVN, if_pos hc] at h
      rw [revTailVN, if_pos hc]
      exact ih h
    · rw [List.cons_append, revTailVN, if_neg hc] at h
      rw [revTailVN, if_neg hc]
      exact h

theorem revVN_of_append_slash (x w : List Char)
    (h : revVN (x ++ '/' :: w) = true) : revVN x = true := by
  cases x with
  | nil => simp [revVN, revTailVN] at h
  | cons c x' =>
    rw [List.cons_append, revVN] at h
    rw [revVN]
    simp only [Bool.and_eq_true] at h ⊢
    exact ⟨h.1, revTailVN_of_append_slash x' w h.2⟩

theorem endsWithVN_of_slash_cons (A s : List Char)
    (h : endsWithVN (A ++ '/' :: s) = true) : endsWithVN s = true := by
  unfold endsWithVN at h ⊢
  have hrev : (A ++ '/' :: s).reverse = s.reverse ++ '/' :: A.reverse := by
    simp [List.reverse_append]
  rw [hrev] at h
  exact revVN_of_append_slash s.reverse A.reverse h

/-- C2: the claim says the externalId returned by `parse_api_feed` carries
no trailing `vN`, but the source never strips the version suffix there (the
stripping happens only in the downstream CSV builder): the entry URL
`http://arxiv.org/abs/1234.5678v2` parses to externalId `1234.5678v2`,
which still ends in `v2`. -/
theorem c2_version_suffix_counterexample :
    (parse_api_feed
        { totalText := none,
          entries := [{ idText := some ("http://arxiv.org/abs/1234.5678v2".toList),
                        authorNames := [] }] }).2
      = [{ arxiv_id := ("1234.5678v2".toList), authors := [] }]
      ∧ endsWithVN ("1234.5678v2".toList) = true := by
  constructor
  · decide
  · decide

/-- C2 (amended): `parse_api_feed` isolates the path segment following the
last `"/abs/"` marker (or keeps the whole value when the marker is absent)
and performs NO version stripping: whenever the entry's stripped id text
ends in a `vN` version suffix, the extracted externalId still ends in that
suffix. -/
theorem c2_parse_keeps_version_suffix (t : List Char)
    (as : List (Option (List Char))) (en : Entry)
    (hp : parse_entry { idText := some t, authorNames := as } = some en)
    (hv : endsWithVN (pstrip t) = true) :
    endsWithVN en.arxiv_id = true := by
  simp only [parse_entry] at hp
  by_cases ht : t = []
  · rw [if_pos ht] at hp
    exact absurd hp (by simp)
  · rw [if_neg ht] at hp
    have hen : en.arxiv_id = extract_arxiv_id (pstrip t) := by
      obtain rfl : _ = en := Option.some.inj hp
      rfl
    rw [hen]
    unfold extract_arxiv_id
    cases habs : afterAbsGo (pstrip t) with
    | none => exact hv
    | some s =>
      obtain ⟨p, hpeq⟩ := afterAbsGo_split (pstrip t) s habs
      have hshape : pstrip t = (p ++ ['/', 'a', 'b', 's']) ++ '/' :: s := by
        rw [hpeq]
        simp [absSep]
      rw [hshape] at hv
      exact endsWithVN_of_slash_cons _ _ hv

/-- C2 witness: the amended preservation statement evaluated on the
versioned entry URL `http://arxiv.org/abs/1234.5678v2`. -/
theorem c2_parse_keeps_version_suffix_witness :
    endsWithVN (Entry.arxiv_id
      { arxiv_id := ("1234.5678v2".toList), authors := [] }) = true :=
  c2_parse_keeps_version_suffix ("http://arxiv.org/abs/1234.5678v2".toList) []
    { arxiv_id := ("1234.5678v2".toList), authors := [] }
    (by decide) (by decide)

/-! ## HTTP fetching (`main.py`, `fetch_text`)

One attempt of the retry loop is an oracle value: either a transport-level
exception from `session.get` or a response with a status code and body.
Each carries its wall-clock duration (in seconds, as `ℚ`). -/

/-- Outcome of one `session.get` attempt. -/
inductive AttemptRes where
  | transportErr (dur : ℚ)
  | response (status : Nat) (body : List Char) (dur : ℚ)
deriving DecidableEq

/-- Wall-clock duration of an attempt. -/
def attemptDur : AttemptRes → ℚ
  | .transportErr d => d
  | .response _ _ d => d

/-- Lines 110-118 of `main.py`: the body is returned unless `session.get`
raised, the explicit 5xx branch raised, or `raise_for_status` raised (it
raises exactly for statuses 400-599). -/
def attempt_success : AttemptRes → Option (List Char)
  | .transportErr _ => none
  | .response s b _ => if 400 ≤ s ∧ s < 600 then none else some b

/-- Whether the attempt is caught by `except requests.RequestException`
and retried. -/
def attempt_fails (a : AttemptRes) : Bool :=
  (attempt_success a).isNone

/-- Aggregate observable outcome of one `fetch_text` call. -/
structure FetchOut where
  result : Option (List Char)
  attempts : Nat
  sleeps : List Int
  elapsed : ℚ
deriving DecidableEq

/-- The retry loop of `fetch_text` (lines 108-126 of `main.py`): the
remaining delay schedule drives the attempt budget (`len(delays) + 1`
attempts); a retryable failure with delays left sleeps the next scheduled
delay.  `result = none` models the final `raise DownloadError`. -/
def fetch_go : List Int → Nat → (Nat → AttemptRes) → FetchOut
  | [], i, att =>
    { result := attempt_success (att i), attempts := 1, sleeps := [],
      elapsed := attemptDur (att i) }
  | d :: ds, i, att =>
    match attempt_success (att i) with
    | some b =>
      { result := some b, attempts := 1, sleeps := [],
        elapsed := attemptDur (att i) }
    | none =>
      let o := fetch_go ds (i + 1) att
      { result := o.result, attempts := o.attempts + 1, sleeps := d :: o.sleeps,
        elapsed := attemptDur (att i) + (d : ℚ) + o.elapsed }

/-- Embeds `fetch_text` with an explicit delay schedule and an attempt
oracle. -/
def fetch_text_run (delays : List Int) (att : Nat → AttemptRes) : FetchOut :=
  fetch_go delays 0 att

/-- Truthy guard plus comparison from `if max_request_seconds and
request_elapsed > max_request_seconds` (`main.py` lines 309 and 360, and
the analogous `max_total_seconds` check at line 372). -/
def slow_check (m : Option ℚ) (elapsed : ℚ) : Bool :=
  match m with
  | none => false
  | some q => if q = 0 then false else decide (elapsed > q)

/-- Observable outcome of one page-fetch block of `download_author`
(lines 299-313): fetch, measure the elapsed wall clock of the whole
`fetch_text` call, raise `SlowDownloadError` before persisting, otherwise
persist the body. -/
inductive PageFetchOut where
  | fetchFailed
  | slowFetch
  | saved (body : List Char)
deriving DecidableEq

/-- Lines 299-313 of `main.py`: `request_start` is taken before
`fetch_text` and the elapsed time of the entire call (all attempts and
backoff sleeps) is compared against `max_request_seconds`. -/
def page_fetch_step (m : Option ℚ) (delays : List Int)
    (att : Nat → AttemptRes) : PageFetchOut :=
  let o := fetch_text_run delays att
  match o.result with
  | none => .fetchFailed
  | some body => if slow_check m o.elapsed then .slowFetch else .saved body

theorem fetch_go_attempts_pos (ds : List Int) (i : Nat) (att : Nat → AttemptRes) :
    1 ≤ (fetch_go ds i att).attempts := by
  cases ds with
  | nil => simp [fetch_go]
  | cons d ds =>
    rw [fetch_go]
    cases attempt_success (att i) with
    | none => simp
    | some b => simp

theorem fetch_go_attempts_le (ds : List Int) :
    ∀ i att, (fetch_go ds i att).attempts ≤ ds.length + 1 := by
  induction ds with
  | nil => intro i att; simp [fetch_go]
  | cons d ds ih =>
    intro i att
    rw [fetch_go]
    cases attempt_success (att i) with
    | none =>
      have := ih (i + 1) att
      simp only [List.length_cons]
      omega
    | some b => simp

theorem fetch_go_sleeps (ds : List Int) :
    ∀ i att, (fetch_go ds i att).sleeps
      = ds.take ((fetch_go ds i att).attempts - 1) := by
  induction ds with
  | nil => intro i att; simp [fetch_go]
  | cons d ds ih =>
    intro i att
    rw [fetch_go]
    cases attempt_success (att i) with
    | none =>
      have hpos := fetch_go_attempts_pos ds (i + 1) att
      obtain ⟨k, hk⟩ : ∃ k, (fetch_go ds (i + 1) att).attempts = k + 1 :=
        ⟨(fetch_go ds (i + 1) att).attempts - 1, by omega⟩
      simp only [hk, Nat.add_sub_cancel, List.take_succ_cons]
      rw [ih (i + 1) att, hk]
      norm_num
    | some b => simp

/-- The scenario attempt oracle of claim C7: status 503 on the first two
attempts, then a 200 with body `b`. -/
def att503 (b : List Char) : Nat → AttemptRes := fun i =>
  if i < 2 then .response 503 [] 0 else .response 200 b 0

/-- C7: `fetch_text` makes at most `len(retry_delays) + 1` attempts and the
delays it sleeps are exactly the schedule's first `attempts - 1` entries in
order (no scaling beyond the schedule); with at least two scheduled delays,
two 503 responses followed by a 200 return the successful body on the
third attempt after sleeping exactly the first two scheduled delays. -/
theorem c7_retry_schedule (delays : List Int) (att : Nat → AttemptRes)
    (b : List Char) (h2 : 2 ≤ delays.length) :
    (fetch_text_run delays att).attempts ≤ delays.length + 1
    ∧ (fetch_text_run delays att).sleeps
        = delays.take ((fetch_text_run delays att).attempts - 1)
    ∧ (fetch_text_run delays (att503 b)).result = some b
    ∧ (fetch_text_run delays (att503 b)).attempts = 3
    ∧ (fetch_text_run delays (att503 b)).sleeps = delays.take 2 := by
  refine ⟨fetch_go_attempts_le delays 0 att, fetch_go_sleeps delays 0 att, ?_⟩
  match delays, h2 with
  | d1 :: d2 :: rest, _ =>
    have hs : ∀ i, i < 2 → attempt_success (att503 b i) = none := by
      intro i hi
      simp [att503, attempt_success, hi]
    have hs2 : attempt_success (att503 b 2) = some b := by
      simp [att503, attempt_success]
    cases rest with
    | nil =>
      rw [fetch_text_run, fetch_go, hs 0 (by omega), fetch_go, hs 1 (by omega),
        fetch_go, hs2]
      simp
    | cons d3 rest' =>
      rw [fetch_text_run, fetch_go, hs 0 (by omega), fetch_go, hs 1 (by omega),
        fetch_go, hs2]
      simp

/-- C7 witness: the default schedule `RETRY_DELAYS = [5, 15, 30]` with the
503/503/200 scenario. -/
theorem c7_retry_schedule_witness :
    (fetch_text_run [5, 15, 30] (att503 ("ok".toList))).attempts ≤ 4
    ∧ (fetch_text_run [5, 15, 30] (att503 ("ok".toList))).sleeps
        = [5, 15, 30].take
            ((fetch_text_run [5, 15, 30] (att503 ("ok".toList))).attempts - 1)
    ∧ (fetch_text_run [5, 15, 30] (att503 ("ok".toList))).result
        = some ("ok".toList)
    ∧ (fetch_text_run [5, 15, 30] (att503 ("ok".toList))).attempts = 3
    ∧ (fetch_text_run [5, 15, 30] (att503 ("ok".toList))).sleeps = [5, 15] := by
  have h := c7_retry_schedule [5, 15, 30] (att503 ("ok".toList)) ("ok".toList)
    (by decide)
  exact ⟨h.1, h.2.1, h.2.2.1, h.2.2.2.1, by rw [h.2.2.2.2]; decide⟩

/-- The single-attempt oracle of the C8 counterexample: every attempt is a
304 Not Modified response carrying a body. -/
def c8att : Nat → AttemptRes := fun _ => .response 304 ("x".toList) 0

/-- C8: the claim says a body is returned iff some attempt receives a 2xx
status and that every non-2xx status (including 3xx) is retried.  In the
source only statuses 400-599 are retried (`raise_for_status` raises for
nothing else), so a 304 response — not a 2xx — is returned as a success. -/
theorem c8_2xx_counterexample :
    (fetch_text_run [] c8att).result = some ("x".toList)
    ∧ (fetch_text_run [] c8att).attempts = 1
    ∧ c8att 0 = .response 304 ("x".toList) 0
    ∧ ¬(200 ≤ 304 ∧ 304 ≤ 299) := by
  refine ⟨by decide, by decide, by decide, by decide⟩

theorem fetch_go_none_iff (ds : List Int) :
    ∀ i att, (fetch_go ds i att).result = none
      ↔ ∀ j, j < ds.length + 1 → attempt_fails (att (i + j)) = true := by
  induction ds with
  | nil =>
    intro i att
    simp only [fetch_go, List.length_nil, Nat.zero_add, Nat.lt_one_iff]
    constructor
    · intro h j hj
      subst hj
      simp [attempt_fails, h]
    · intro h
      have := h 0 rfl
      simpa [attempt_fails, Option.isNone_iff_eq_none] using this
  | cons d ds ih =>
    intro i att
    rw [fetch_go]
    cases hs : attempt_success (att i) with
    | some b =>
      simp only
      constructor
      · intro h; exact absurd h (by simp)
      · intro h
        have h0 := h 0 (by omega)
        rw [Nat.add_zero] at h0
        rw [attempt_fails, hs] at h0
        simp at h0
    | none =>
      simp only
      rw [ih (i + 1) att]
      constructor
      · intro h j hj
        cases j with
        | zero =>
          rw [Nat.add_zero, attempt_fails, hs]
          rfl
        | succ k =>
          have := h k (by simpa [List.length_cons] using hj)
          rwa [show i + 1 + k = i + (k + 1) by omega] at this
      · intro h j hj
        have := h (j + 1) (by simp only [List.length_cons]; omega)
        rwa [show i + (j + 1) = i + 1 + j by omega] at this

theorem fetch_go_some_exists (ds : List Int) :
    ∀ i att b, (fetch_go ds i att).result = some b →
      ∃ j, j < ds.length + 1 ∧ attempt_success (att (i + j)) = some b
        ∧ ∀ m, m < j → attempt_fails (att (i + m)) = true := by
  induction ds with
  | nil =>
    intro i att b h
    rw [fetch_go] at h
    exact ⟨0, by omega, by simpa using h, by omega⟩
  | cons d ds ih =>
    intro i att b h
    rw [fetch_go] at h
    cases hs : attempt_success (att i) with
    | some b' =>
      rw [hs] at h
      obtain rfl : b' = b := by injection h
      exact ⟨0, by omega, by simpa using hs, by omega⟩
    | none =>
      rw [hs] at h
      obtain ⟨j, hj, hsucc, hfail⟩ := ih (i + 1) att b h
      refine ⟨j + 1, by simp only [List.length_cons]; omega,
        by rwa [show i + (j + 1) = i + 1 + j by omega], ?_⟩
      intro m hm
      cases m with
      | zero =>
        rw [Nat.add_zero, attempt_fails, hs]
        rfl
      | succ k =>
        have := hfail k (by omega)
        rwa [show i + (k + 1) = i + 1 + k by omega]

/-- C8 (amended): retryable means a transport error or a status in
400-599; `fetch_text` returns a body iff some attempt in the budget of
`len(retry_delays) + 1` is the first non-retryable one, and it raises the
wrapped failure (`result = none`, never a silent empty success) iff every
attempt in the budget is retryable. -/
theorem c8_fetch_result_amended (delays : List Int) (att : Nat → AttemptRes) :
    ((fetch_text_run delays att).result = none
      ↔ ∀ j, j < delays.length + 1 → attempt_fails (att j) = true)
    ∧ (∀ b, (fetch_text_run delays att).result = some b →
        ∃ j, j < delays.length + 1 ∧ attempt_success (att j) = some b
          ∧ ∀ m, m < j → attempt_fails (att m) = true) := by
  constructor
  · have := fetch_go_none_iff delays 0 att
    simpa using this
  · intro b hb
    have := fetch_go_some_exists delays 0 att b hb
    simpa using this

/-- C8 witness: transport errors on every attempt exhaust the schedule
`[5]` and surface a failure rather than a body. -/
theorem c8_fetch_result_amended_witness :
    (fetch_text_run [5] (fun _ => AttemptRes.transportErr 1)).result = none :=
  (c8_fetch_result_amended [5] (fun _ => AttemptRes.transportErr 1)).1.mpr
    (fun j _ => by simp [attempt_fails, attempt_success])

/-- Sum of the durations of attempts `i, i+1, …, i+n-1`. -/
def durSum (att : Nat → AttemptRes) (i : Nat) : Nat → ℚ
  | 0 => 0
  | k + 1 => attemptDur (att i) + durSum att (i + 1) k

/-- Total seconds slept, for a list of scheduled backoff delays. -/
def sleepSum : List Int → ℚ
  | [] => 0
  | d :: rest => (d : ℚ) + sleepSum rest

theorem fetch_go_elapsed (ds : List Int) :
    ∀ i att, (fetch_go ds i att).elapsed
      = durSum att i (fetch_go ds i att).attempts
        + sleepSum (fetch_go ds i att).sleeps := by
  induction ds with
  | nil => intro i att; simp [fetch_go, durSum, sleepSum]
  | cons d ds ih =>
    intro i att
    rw [fetch_go]
    cases attempt_success (att i) with
    | some b => simp [durSum, sleepSum]
    | none =>
      simp only [durSum, sleepSum]
      rw [ih (i + 1) att]
      ring

/-- The attempt oracle of the C3 counterexample: a 503 lasting 3 seconds,
then a 200 lasting 3 seconds, with a 5-second backoff scheduled between
them. -/
def c3att : Nat → AttemptRes := fun i =>
  if i = 0 then .response 503 [] 3 else .response 200 ("ok".toList) 3

/-- C3: the claim says `SlowDownloadError` is raised exactly when a single
attempt exceeds `max_request_seconds`.  In the source the clock is taken
around the whole `fetch_text` call (`main.py` lines 300-308), so with a
6-second budget, two 3-second attempts separated by a 5-second backoff
sleep (11 seconds in total, no attempt over 6) still raise it. -/
theorem c3_per_attempt_counterexample :
    page_fetch_step (some 6) [5] c3att = .slowFetch
    ∧ attemptDur (c3att 0) ≤ 6
    ∧ attemptDur (c3att 1) ≤ 6
    ∧ (fetch_text_run [5] c3att).attempts = 2 := by
  refine ⟨?_, ?_, ?_, ?_⟩
  · norm_num [page_fetch_step, fetch_text_run, fetch_go, c3att,
      attempt_success, attemptDur, slow_check]
  · norm_num [c3att, attemptDur]
  · norm_num [c3att, attemptDur]
  · norm_num [fetch_text_run, fetch_go, c3att, attempt_success]

/-- C3 (amended): for a nonzero per-request budget `q`, the page-fetch
block raises `SlowDownloadError` exactly when the fetch succeeded and the
CUMULATIVE wall clock of the whole `fetch_text` call — the sum of every
executed attempt's duration plus every backoff sleep — exceeds `q`; and
when it is raised the received body is not persisted. -/
theorem c3_slow_check_cumulative (ds : List Int) (att : Nat → AttemptRes)
    (q : ℚ) (hq : q ≠ 0) :
    (page_fetch_step (some q) ds att = .slowFetch
      ↔ ((fetch_text_run ds att).result.isSome = true
        ∧ durSum att 0 (fetch_text_run ds att).attempts
            + sleepSum (fetch_text_run ds att).sleeps
          > q))
    ∧ (page_fetch_step (some q) ds att = .slowFetch →
        ∀ b, page_fetch_step (some q) ds att ≠ .saved b) := by
  have helapsed : (fetch_text_run ds att).elapsed
      = durSum att 0 (fetch_text_run ds att).attempts
        + sleepSum (fetch_text_run ds att).sleeps :=
    fetch_go_elapsed ds 0 att
  constructor
  · rw [page_fetch_step, ← helapsed]
    cases hres : (fetch_text_run ds att).result with
    | none =>
      simp only
      constructor
      · intro h; exact absurd h (by simp)
      · intro h; simp at h
    | some b =>
      simp only [Option.isSome_some, true_and]
      rw [slow_check, if_neg hq]
      by_cases hgt : (fetch_text_run ds att).elapsed > q
      · rw [if_pos (by simpa using hgt)]
        simp [hgt]
      · rw [if_neg (by simpa using hgt)]
        simp only [gt_iff_lt]
        constructor
        · intro h; exact absurd h (by simp)
        · intro h; exact absurd h (by simpa using hgt)
  · intro hslow b
    rw [hslow]
    simp

/-- C3 witness: the amended cumulative characterisation evaluated on the
counterexample oracle (3s + 5s sleep + 3s = 11s > 6s budget). -/
theorem c3_slow_check_cumulative_witness :
    page_fetch_step (some 6) [5] c3att = .slowFetch ↔
      ((fetch_text_run [5] c3att).result.isSome = true
        ∧ durSum c3att 0 (fetch_text_run [5] c3att).attempts
            + sleepSum (fetch_text_run [5] c3att).sleeps
          > 6) :=
  (c3_slow_check_cumulative [5] c3att 6 (by norm_num)).1

/-! ## Atomic persistence (`main.py`, `safe_write_text`)

A directory is a map from file names to optional contents.  A write via
`safe_write_text` passes through a sequence of observable filesystem
states: the temporary file grows by arbitrary prefixes and is then renamed
onto the final name in one atomic step. -/

/-- A directory state: file name to contents, `none` when absent. -/
def FS : Type := List Char → Option (List Char)

/-- Point update of a directory state. -/
def fsSet (fs : FS) (k : List Char) (v : Option (List Char)) : FS :=
  fun k' => if k' = k then v else fs k'

/-- `path.with_suffix(path.suffix + ".tmp")` of `safe_write_text`: the
temporary name appends `.tmp` to the final name. -/
def tmp_name (p : List Char) : List Char :=
  p ++ ('.' :: 't' :: 'm' :: 'p' :: [])

/-- Every filesystem state observable during `safe_write_text fs p text`,
in order: the initial state, the temporary file holding each partial
prefix of the text (an interruption during `tmp_path.write_text` leaves
exactly such a state), and the final state after the atomic
`tmp_path.replace(path)`. -/
def safe_write_states (fs : FS) (p text : List Char) : List FS :=
  fs
    :: ((List.range (text.length + 1)).map
          (fun i => fsSet fs (tmp_name p) (some (text.take i))))
    ++ [fsSet (fsSet fs (tmp_name p) none) p (some text)]

theorem tmp_name_ne (p : List Char) : tmp_name p ≠ p := by
  intro h
  have := congrArg List.length h
  simp [tmp_name] at this

/-- C9: at every interruption point of `safe_write_text` the final name
holds either its previous contents or the complete new text — never a
partial or truncated artifact — and in the last state it holds the
complete new text.  (Both `PageCache` page writes and `DocumentStore`
document writes of `download_author` go through `safe_write_text`.) -/
theorem c9_atomic_write (fs : FS) (p text : List Char) :
    (∀ s ∈ safe_write_states fs p text, s p = fs p ∨ s p = some text)
    ∧ (safe_write_states fs p text).getLast? =
        some (fsSet (fsSet fs (tmp_name p) none) p (some text))
    ∧ fsSet (fsSet fs (tmp_name p) none) p (some text) p = some text := by
  refine ⟨?_, ?_, ?_⟩
  · intro s hs
    rw [safe_write_states] at hs
    rcases List.mem_cons.mp hs with rfl | hs'
    · exact Or.inl rfl
    · rcases List.mem_append.mp hs' with hmid | hlast
      · obtain ⟨i, _, rfl⟩ := List.mem_map.mp hmid
        left
        simp only [fsSet, if_neg (Ne.symm (tmp_name_ne p))]
      · rw [List.mem_singleton] at hlast
        subst hlast
        right
        simp [fsSet]
  · exact List.getLast?_concat _
  · simp [fsSet]

/-- Concrete empty directory for the C9 witness. -/
def c9fs : FS := fun _ => none

/-- Concrete final artifact name for the C9 witness. -/
def c9p : List Char := "page-1.xml".toList

/-- Concrete artifact contents for the C9 witness. -/
def c9text : List Char := "ok".toList

/-- Concrete post-rename state for the C9 witness. -/
def c9final : FS := fsSet (fsSet c9fs (tmp_name c9p) none) c9p (some c9text)

/-- C9 witness: the state after the atomic rename is an observable state of
the write and holds either the old contents or the complete new text. -/
theorem c9_atomic_write_witness :
    c9final c9p = c9fs c9p ∨ c9final c9p = some c9text :=
  (c9_atomic_write c9fs c9p c9text).1 c9final (by
    rw [safe_write_states]
    exact List.mem_cons_of_mem _
      (List.mem_append_right _ (List.mem_singleton.mpr rfl)))

/-! ## The crawl loop (`main.py`, `download_author`)

The loop is embedded as a step function over an explicit state, driven by
environment oracles: the page cache, the network (indexed by start
offset), the document store, and the jitter sleeps.  An explicit fuel
counts loop iterations (the Python loop is `while True`). -/

/-- `PAGE_SIZE` of `main.py`. -/
def PAGE_SIZE : Nat := 50

/-- Embeds `sanitize_id`: path separators become underscores. -/
def sanitize_id (l : List Char) : List Char :=
  l.map (fun c => if c = '/' then '_' else c)

/-- The exceptions `download_author` raises: `DownloadError` and its
subclass `SlowDownloadError`. -/
inductive Err where
  | download
  | slow
deriving DecidableEq

/-- Environment oracles for one crawl.  `cache i` is the state of the file
`page-i.xml` (`none` = missing, empty or unreadable; `some none` = present
but not parseable XML; `some (some f)` = parses to the tree `f`).
`net off` is the outcome of `fetch_text` for the page at start offset
`off` (`none` = `DownloadError`, otherwise total call duration and the
parse outcome of the body).  `htmlCache sid` is whether a non-empty
document exists for the sanitized id before the run; `htmlNet id` the
outcome of a document fetch.  The sleep oracles give the jitter values
`rand_sleep` draws. -/
structure Env where
  cache : Nat → Option (Option Feed)
  net : Nat → Option (ℚ × Option Feed)
  htmlCache : List Char → Bool
  htmlNet : List Char → Option (ℚ × List Char)
  apiSleep : Nat → ℚ
  htmlSleep : Nat → ℚ

/-- The caller-supplied arguments of `download_author` that the loop
reads. -/
structure Params where
  first_name : List Char
  last_name : List Char
  maxReq : Option ℚ
  maxTotal : Option ℚ

/-- Embeds `load_api_page`: `none` when the artifact is missing, empty,
unreadable or unparseable, otherwise the parse result. -/
def load_api_page (cache : Nat → Option (Option Feed)) (i : Nat) :
    Option (Int × List Entry) :=
  match cache i with
  | none => none
  | some none => none
  | some (some f) => some (parse_api_feed f)

/-- The mutable state of `download_author`'s loop, plus ghost trace fields
(`apiCalls`, `apiWritten`, `htmlFetched`, `htmlWritten`, `matchedIds`)
recording network calls and writes for the theorems. -/
structure St where
  start : Nat
  api_pages : Nat
  total_results : Int
  seen : List (List Char)
  matched : Nat
  elapsed : ℚ
  apiSleepN : Nat
  htmlSleepN : Nat
  apiCalls : List (Nat × Nat)
  apiWritten : List Nat
  htmlFetched : List (List Char)
  htmlWritten : List (List Char × List Char)
  matchedIds : List (List Char)

/-- The state at the top of `download_author`. -/
def initSt : St :=
  { start := 0, api_pages := 0, total_results := 0, seen := [], matched := 0,
    elapsed := 0, apiSleepN := 0, htmlSleepN := 0, apiCalls := [],
    apiWritten := [], htmlFetched := [], htmlWritten := [], matchedIds := [] }

/-- Result of processing a batch of entries: normal continuation, or an
exception unwinding with the state at the raise point. -/
inductive ERes where
  | ok (st : St)
  | fail (e : Err) (st : St)

/-- The `html_path.exists() and st_size != 0` check: a file written earlier
in this run wins (it is non-empty iff its body was), otherwise the
pre-existing document store decides. -/
def html_present (env : Env) (st : St) (sid : List Char) : Bool :=
  match (st.htmlWritten.filter (fun pr => pr.1 == sid)).getLast? with
  | some pr => pr.2 != []
  | none => env.htmlCache sid

/-- Lines 336-366 of `main.py`: dedup against the seen-id set, name match,
document-store check, document fetch with slow check, write and jitter
sleep. -/
def process_entry (env : Env) (p : Params) (st : St) (e : Entry) : ERes :=
  if st.seen.contains e.arxiv_id then .ok st
  else
    let st1 := { st with seen := st.seen ++ [e.arxiv_id] }
    if author_matches p.first_name p.last_name e.authors then
      let st2 := { st1 with matched := st1.matched + 1,
                            matchedIds := st1.matchedIds ++ [e.arxiv_id] }
      let sid := sanitize_id e.arxiv_id
      if html_present env st2 sid then .ok st2
      else
        match env.htmlNet e.arxiv_id with
        | none => .fail .download
            { st2 with htmlFetched := st2.htmlFetched ++ [e.arxiv_id] }
        | some (dur, body) =>
          let st3 := { st2 with
            htmlFetched := st2.htmlFetched ++ [e.arxiv_id],
            elapsed := st2.elapsed + dur }
          if slow_check p.maxReq dur then .fail .slow st3
          else
            .ok { st3 with
              htmlWritten := st3.htmlWritten ++ [(sid, body)],
              elapsed := st3.elapsed + env.htmlSleep st3.htmlSleepN,
              htmlSleepN := st3.htmlSleepN + 1 }
    else .ok st1

/-- The `for entry in entries` loop. -/
def process_entries (env : Env) (p : Params) : St → List Entry → ERes
  | st, [] => .ok st
  | st, e :: es =>
    match process_entry env p st e with
    | .ok st' => process_entries env p st' es
    | .fail e' st' => .fail e' st'

/-- One loop iteration's verdict: continue, terminate normally (`break`),
or raise. -/
inductive StepR where
  | cont (st : St)
  | stop (st : St)
  | fail (e : Err) (st : St)

/-- Lines 322-380 of `main.py`, from `page_total, entries = parsed` to the
end of the loop body: record the declared total on page 1, break on an
empty page, process the entries, advance the offset, check the
total-results bound, the total-time budget, and the post-fetch jitter
sleep. -/
def after_parse (env : Env) (p : Params) (st : St) (pages : Nat)
    (api_fetched : Bool) (parsed : Int × List Entry) : StepR :=
  let st1 := if pages = 1 ∧ parsed.1 ≠ 0
             then { st with total_results := parsed.1 } else st
  if parsed.2 = [] then .stop st1
  else
    match process_entries env p st1 parsed.2 with
    | .fail e st' => .fail e st'
    | .ok st2 =>
      let st3 := { st2 with start := st2.start + PAGE_SIZE }
      if st3.total_results ≠ 0 ∧ (st3.start : Int) ≥ st3.total_results then
        .stop st3
      else if slow_check p.maxTotal st3.elapsed then .fail .slow st3
      else if api_fetched then
        .cont { st3 with elapsed := st3.elapsed + env.apiSleep st3.apiSleepN,
                         apiSleepN := st3.apiSleepN + 1 }
      else .cont st3

/-- Lines 292-321 of `main.py`: one iteration of the `while True` loop —
cache probe, network fetch on a miss with the per-request slow check
before the atomic write, parse, then `after_parse`. -/
def crawl_step (env : Env) (p : Params) (st : St) : StepR :=
  let pages := st.api_pages + 1
  let st0 := { st with api_pages := pages }
  match load_api_page env.cache pages with
  | some parsed => after_parse env p st0 pages false parsed
  | none =>
    match env.net st0.start with
    | none => .fail .download
        { st0 with apiCalls := st0.apiCalls ++ [(pages, st0.start)] }
    | some (dur, doc) =>
      let st1 := { st0 with apiCalls := st0.apiCalls ++ [(pages, st0.start)],
                            elapsed := st0.elapsed + dur }
      if slow_check p.maxReq dur then .fail .slow st1
      else
        let st2 := { st1 with apiWritten := st1.apiWritten ++ [pages] }
        match doc with
        | none => .fail .download st2
        | some feed => after_parse env p st2 pages true (parse_api_feed feed)

/-- Outcome of a whole crawl with the given fuel. -/
inductive RunR where
  | finished (st : St)
  | failed (e : Err) (st : St)
  | fuelOut (st : St)

/-- The `while True` loop of `download_author`, with explicit fuel — one
unit per iteration. -/
def crawl_run (env : Env) (p : Params) : Nat → St → RunR
  | 0, st => .fuelOut st
  | fuel + 1, st =>
    match crawl_step env p st with
    | .cont st' => crawl_run env p fuel st'
    | .stop st' => .finished st'
    | .fail e st' => .failed e st'

/-- The state carried by a run outcome. -/
def runStateOf : RunR → St
  | .finished st => st
  | .failed _ st => st
  | .fuelOut st => st

/-- Whether the run terminated normally (reached a `break` and returned a
`DownloadResult`). -/
def isFinished : RunR → Bool
  | .finished _ => true
  | _ => false

/-- The state carried by an entry-processing result. -/
def stOfE : ERes → St
  | .ok st => st
  | .fail _ st => st

/-- The state carried by a step verdict. -/
def stOfStep : StepR → St
  | .cont st => st
  | .stop st => st
  | .fail _ st => st

/-- The dedup invariant maintained by the seen-id set: the seen list has
no duplicates and the match/fetch traces are duplicate-free sublists of
it. -/
def DedupInv (st : St) : Prop :=
  st.seen.Nodup ∧ st.matchedIds.Nodup ∧ st.htmlFetched.Nodup
  ∧ (∀ x ∈ st.matchedIds, x ∈ st.seen) ∧ (∀ x ∈ st.htmlFetched, x ∈ st.seen)

theorem dedupInv_init : DedupInv initSt := by
  refine ⟨?_, ?_, ?_, ?_, ?_⟩ <;> simp [initSt]

theorem nodup_append_single {l : List (List Char)} {a : List Char}
    (h : l.Nodup) (ha : a ∉ l) : (l ++ [a]).Nodup := by
  rw [List.nodup_append]
  exact ⟨h, List.nodup_singleton a, by simpa [List.disjoint_singleton] using ha⟩

theorem process_entry_dedup (env : Env) (p : Params) (st : St) (e : Entry)
    (h : DedupInv st) : DedupInv (stOfE (process_entry env p st e)) := by
  obtain ⟨hseen, hmat, hfet, hms, hfs⟩ := h
  rw [process_entry]
  by_cases hc : st.seen.contains e.arxiv_id
  · rw [if_pos hc]
    exact ⟨hseen, hmat, hfet, hms, hfs⟩
  · rw [if_neg hc]
    have hnotin : e.arxiv_id ∉ st.seen := fun hmem =>
      hc (List.elem_eq_true_of_mem hmem)
    have hseen1 : (st.seen ++ [e.arxiv_id]).Nodup :=
      nodup_append_single hseen hnotin
    have hsub1 : ∀ x ∈ st.seen, x ∈ st.seen ++ [e.arxiv_id] := fun x hx =>
      List.mem_append_left _ hx
    have hself : e.arxiv_id ∈ st.seen ++ [e.arxiv_id] :=
      List.mem_append_right _ (List.mem_singleton.mpr rfl)
    by_cases hm : author_matches p.first_name p.last_name e.authors
    · rw [if_pos hm]
      have hmat2 : (st.matchedIds ++ [e.arxiv_id]).Nodup :=
        nodup_append_single hmat (fun hx => hnotin (hms _ hx))
      have hms2 : ∀ x ∈ st.matchedIds ++ [e.arxiv_id],
          x ∈ st.seen ++ [e.arxiv_id] := by
        intro x hx
        rcases List.mem_append.mp hx with hx | hx
        · exact hsub1 x (hms x hx)
        · rw [List.mem_singleton] at hx
          subst hx
          exact hself
      by_cases hp : html_present env
          { st with seen := st.seen ++ [e.arxiv_id],
                    matched := st.matched + 1,
                    matchedIds := st.matchedIds ++ [e.arxiv_id] }
          (sanitize_id e.arxiv_id)
      · rw [if_pos hp]
        exact ⟨hseen1, hmat2, hfet, hms2, fun x hx => hsub1 x (hfs x hx)⟩
      · rw [if_neg hp]
        have hfet3 : (st.htmlFetched ++ [e.arxiv_id]).Nodup :=
          nodup_append_single hfet (fun hx => hnotin (hfs _ hx))
        have hfs3 : ∀ x ∈ st.htmlFetched ++ [e.arxiv_id],
            x ∈ st.seen ++ [e.arxiv_id] := by
          intro x hx
          rcases List.mem_append.mp hx with hx | hx
          · exact hsub1 x (hfs x hx)
          · rw [List.mem_singleton] at hx
            subst hx
            exact hself
        cases hnet : env.htmlNet e.arxiv_id with
        | none => exact ⟨hseen1, hmat2, hfet3, hms2, hfs3⟩
        | some pr =>
          by_cases hs : slow_check p.maxReq pr.1
          · simp only [hs, if_true]
            exact ⟨hseen1, hmat2, hfet3, hms2, hfs3⟩
          · simp only [hs, if_false]
            exact ⟨hseen1, hmat2, hfet3, hms2, hfs3⟩
    · rw [if_neg hm]
      exact ⟨hseen1, hmat, hfet, fun x hx => hsub1 x (hms x hx),
        fun x hx => hsub1 x (hfs x hx)⟩

theorem process_entries_dedup (env : Env) (p : Params) :
    ∀ es st, DedupInv st → DedupInv (stOfE (process_entries env p st es)) := by
  intro es
  induction es with
  | nil => intro st h; exact h
  | cons e es ih =>
    intro st h
    rw [process_entries]
    have h1 := process_entry_dedup env p st e h
    cases hpe : process_entry env p st e with
    | ok st' =>
      rw [hpe] at h1
      exact ih st' h1
    | fail e' st' =>
      rw [hpe] at h1
      exact h1

theorem after_parse_dedup (env : Env) (p : Params) (st : St) (pages : Nat)
    (fetched : Bool) (parsed : Int × List Entry) (h : DedupInv st) :
    DedupInv (stOfStep (after_parse env p st pages fetched parsed)) := by
  have h1 : DedupInv (if pages = 1 ∧ parsed.1 ≠ 0
      then { st with total_results := parsed.1 } else st) := by
    split
    · exact h
    · exact h
  have h2 := process_entries_dedup env p parsed.2
    (if pages = 1 ∧ parsed.1 ≠ 0
      then { st with total_results := parsed.1 } else st) h1
  simp only [after_parse]
  split
  · exact h1
  · split
    · rename_i e' st' heq
      rw [heq] at h2
      exact h2
    · rename_i st2 heq
      rw [heq] at h2
      simp only [stOfE] at h2
      split
      · exact h2
      · split
        · exact h2
        · split
          · exact h2
          · exact h2

theorem crawl_step_dedup (env : Env) (p : Params) (st : St)
    (h : DedupInv st) : DedupInv (stOfStep (crawl_step env p st)) := by
  rw [crawl_step]
  have h0 : DedupInv { st with api_pages := st.api_pages + 1 } := h
  cases load_api_page env.cache (st.api_pages + 1) with
  | some parsed => exact after_parse_dedup env p _ _ _ _ h0
  | none =>
    cases env.net st.start with
    | none => exact h0
    | some pr =>
      by_cases hs : slow_check p.maxReq pr.1
      · simp only [hs, if_true]
        exact h0
      · simp only [hs, if_false]
        cases pr.2 with
        | none => exact h0
        | some feed => exact after_parse_dedup env p _ _ _ _ h0

theorem crawl_run_dedup (env : Env) (p : Params) :
    ∀ fuel st, DedupInv st → DedupInv (runStateOf (crawl_run env p fuel st)) := by
  intro fuel
  induction fuel with
  | zero => intro st h; exact h
  | succ fuel ih =>
    intro st h
    rw [crawl_run]
    have h1 := crawl_step_dedup env p st h
    cases hs : crawl_step env p st with
    | cont st' =>
      rw [hs] at h1
      exact ih st' h1
    | stop st' =>
      rw [hs] at h1
      exact h1
    | fail e st' =>
      rw [hs] at h1
      exact h1

/-- C6: in every crawl run — whatever the feed, the caches, the budgets
and however often an externalId reappears across (drifted) pages — each
externalId is matched at most once and its document fetched at most once:
the match and fetch traces of the final state are duplicate-free, and
every matched or fetched id was recorded in the seen-id set. -/
theorem c6_dedup_at_most_once (env : Env) (p : Params) (fuel : Nat) :
    (runStateOf (crawl_run env p fuel initSt)).matchedIds.Nodup
    ∧ (runStateOf (crawl_run env p fuel initSt)).htmlFetched.Nodup
    ∧ (∀ x ∈ (runStateOf (crawl_run env p fuel initSt)).matchedIds,
        x ∈ (runStateOf (crawl_run env p fuel initSt)).seen)
    ∧ (∀ x ∈ (runStateOf (crawl_run env p fuel initSt)).htmlFetched,
        x ∈ (runStateOf (crawl_run env p fuel initSt)).seen) := by
  obtain ⟨_, h2, h3, h4, h5⟩ := crawl_run_dedup env p fuel initSt dedupInv_init
  exact ⟨h2, h3, h4, h5⟩

/-- Fields of the loop state that entry processing never touches. -/
def ctrlEq (st st' : St) : Prop :=
  st'.start = st.start ∧ st'.api_pages = st.api_pages
  ∧ st'.total_results = st.total_results ∧ st'.apiCalls = st.apiCalls
  ∧ st'.apiWritten = st.apiWritten

theorem ctrlEq_refl (st : St) : ctrlEq st st :=
  ⟨rfl, rfl, rfl, rfl, rfl⟩

theorem ctrlEq_trans {s1 s2 s3 : St} (h12 : ctrlEq s1 s2) (h23 : ctrlEq s2 s3) :
    ctrlEq s1 s3 := by
  obtain ⟨a1, b1, c1, d1, e1⟩ := h12
  obtain ⟨a2, b2, c2, d2, e2⟩ := h23
  exact ⟨a2.trans a1, b2.trans b1, c2.trans c1, d2.trans d1, e2.trans e1⟩

/-- With no per-request budget and a document fetch oracle that always
succeeds, entry processing cannot raise and leaves the loop-control fields
unchanged. -/
theorem process_entry_ok (env : Env) (p : Params) (st : St) (e : Entry)
    (hmr : p.maxReq = none) (hh : ∀ id, (env.htmlNet id).isSome = true) :
    ∃ st', process_entry env p st e = .ok st' ∧ ctrlEq st st' := by
  rw [process_entry]
  by_cases hc : st.seen.contains e.arxiv_id
  · rw [if_pos hc]
    exact ⟨st, rfl, ctrlEq_refl st⟩
  · rw [if_neg hc]
    by_cases hm : author_matches p.first_name p.last_name e.authors
    · rw [if_pos hm]
      by_cases hp : html_present env
          { st with seen := st.seen ++ [e.arxiv_id],
                    matched := st.matched + 1,
                    matchedIds := st.matchedIds ++ [e.arxiv_id] }
          (sanitize_id e.arxiv_id)
      · rw [if_pos hp]
        exact ⟨_, rfl, ⟨rfl, rfl, rfl, rfl, rfl⟩⟩
      · rw [if_neg hp]
        obtain ⟨pr, hpr⟩ := Option.isSome_iff_exists.mp (hh e.arxiv_id)
        rw [hpr]
        have hslow : slow_check p.maxReq pr.1 = false := by
          rw [hmr, slow_check]
        obtain ⟨d, b⟩ := pr
        simp only [hslow, Bool.false_eq_true, if_false]
        exact ⟨_, rfl, ⟨rfl, rfl, rfl, rfl, rfl⟩⟩
    · rw [if_neg hm]
      exact ⟨_, rfl, ⟨rfl, rfl, rfl, rfl, rfl⟩⟩

theorem process_entries_ok (env : Env) (p : Params)
    (hmr : p.maxReq = none) (hh : ∀ id, (env.htmlNet id).isSome = true) :
    ∀ es st, ∃ st', process_entries env p st es = .ok st' ∧ ctrlEq st st' := by
  intro es
  induction es with
  | nil => intro st; exact ⟨st, rfl, ctrlEq_refl st⟩
  | cons e es ih =>
    intro st
    obtain ⟨st1, hpe, hctrl1⟩ := process_entry_ok env p st e hmr hh
    obtain ⟨st2, hpes, hctrl2⟩ := ih st1
    refine ⟨st2, ?_, ctrlEq_trans hctrl1 hctrl2⟩
    rw [process_entries, hpe]
    exact hpes

/-- Characterisation of `after_parse` on the success path: with no budgets
and a reliable document oracle, a non-empty page is processed without
raising; the offset advances by one page, and the loop breaks exactly when
the declared total (as set on page 1) is known and reached. -/
theorem after_parse_ok (env : Env) (p : Params) (st : St) (pages : Nat)
    (fetched : Bool) (parsed : Int × List Entry)
    (hmr : p.maxReq = none) (hmt : p.maxTotal = none)
    (hh : ∀ id, (env.htmlNet id).isSome = true) (hne : parsed.2 ≠ []) :
    ∃ st',
      (after_parse env p st pages fetched parsed = .stop st'
        ∨ after_parse env p st pages fetched parsed = .cont st')
      ∧ st'.start = st.start + PAGE_SIZE
      ∧ st'.api_pages = st.api_pages
      ∧ st'.total_results
          = (if pages = 1 ∧ parsed.1 ≠ 0 then parsed.1 else st.total_results)
      ∧ st'.apiCalls = st.apiCalls
      ∧ st'.apiWritten = st.apiWritten
      ∧ (after_parse env p st pages fetched parsed = .stop st'
          ↔ ((if pages = 1 ∧ parsed.1 ≠ 0 then parsed.1 else st.total_results) ≠ 0
            ∧ ((st.start + PAGE_SIZE : Nat) : Int)
                ≥ (if pages = 1 ∧ parsed.1 ≠ 0 then parsed.1
                   else st.total_results))) := by
  obtain ⟨st2, hpes, hc1, hc2, hc3, hc4, hc5⟩ :=
    process_entries_ok env p hmr hh parsed.2
      (if pages = 1 ∧ parsed.1 ≠ 0
        then { st with total_results := parsed.1 } else st)
  have hT1 : (if pages = 1 ∧ parsed.1 ≠ 0
      then { st with total_results := parsed.1 } else st).total_results
      = (if pages = 1 ∧ parsed.1 ≠ 0 then parsed.1 else st.total_results) := by
    split
    · rfl
    · rfl
  have hS1 : (if pages = 1 ∧ parsed.1 ≠ 0
      then { st with total_results := parsed.1 } else st).start = st.start := by
    split
    · rfl
    · rfl
  have hP1 : (if pages = 1 ∧ parsed.1 ≠ 0
      then { st with total_results := parsed.1 } else st).api_pages
      = st.api_pages := by
    split
    · rfl
    · rfl
  have hA1 : (if pages = 1 ∧ parsed.1 ≠ 0
      then { st with total_results := parsed.1 } else st).apiCalls
      = st.apiCalls := by
    split
    · rfl
    · rfl
  have hW1 : (if pages = 1 ∧ parsed.1 ≠ 0
      then { st with total_results := parsed.1 } else st).apiWritten
      = st.apiWritten := by
    split
    · rfl
    · rfl
  rw [after_parse, if_neg hne, hpes]
  dsimp only
  set T1 := if pages = 1 ∧ parsed.1 ≠ 0 then parsed.1 else st.total_results
    with hT1def
  have hst2T : st2.total_results = T1 := hc3.trans (hT1.trans rfl)
  have hst2S : st2.start = st.start := hc1.trans hS1
  have hst2P : st2.api_pages = st.api_pages := hc2.trans hP1
  have hst2A : st2.apiCalls = st.apiCalls := hc4.trans hA1
  have hst2W : st2.apiWritten = st.apiWritten := hc5.trans hW1
  by_cases hcond : st2.total_results ≠ 0
      ∧ ((st2.start + PAGE_SIZE : Nat) : Int) ≥ st2.total_results
  · refine ⟨{ st2 with start := st2.start + PAGE_SIZE }, Or.inl ?_, by
      simpa using congrArg (· + PAGE_SIZE) hst2S, hst2P, by
      simpa using hst2T, hst2A, hst2W, ?_⟩
    · simp only [if_pos hcond]
    · rw [if_pos hcond]
      simp only [true_iff]
      rw [← hst2T, ← hst2S]
      exact hcond
  · have hslow : slow_check p.maxTotal
        ({ st2 with start := st2.start + PAGE_SIZE }).elapsed = false := by
      rw [hmt, slow_check]
    refine ⟨if fetched then
        { st2 with start := st2.start + PAGE_SIZE,
                   elapsed := st2.elapsed + env.apiSleep st2.apiSleepN,
                   apiSleepN := st2.apiSleepN + 1 }
      else { st2 with start := st2.start + PAGE_SIZE }, Or.inr ?_, ?_, ?_, ?_,
      ?_, ?_, ?_⟩
    · rw [if_neg hcond, hslow]
      simp only [Bool.false_eq_true, if_false]
      cases fetched with
      | true => simp
      | false => simp
    · cases fetched with
      | true => simpa using congrArg (· + PAGE_SIZE) hst2S
      | false => simpa using congrArg (· + PAGE_SIZE) hst2S
    · cases fetched with
      | true => simpa using hst2P
      | false => simpa using hst2P
    · cases fetched with
      | true => simpa using hst2T
      | false => simpa using hst2T
    · cases fetched with
      | true => simpa using hst2A
      | false => simpa using hst2A
    · cases fetched with
      | true => simpa using hst2W
      | false => simpa using hst2W
    · rw [if_neg hcond, hslow]
      simp only [Bool.false_eq_true, if_false]
      constructor
      · intro h
        exfalso
        cases fetched with
        | true => simp at h
        | false => simp at h
      · intro h
        exfalso
        rw [← hst2T, ← hst2S] at h
        exact hcond h

/-- Characterisation of one `crawl_step` iteration on a cache miss with a
successful, parseable network fetch. -/
theorem crawl_step_fetch (env : Env) (p : Params) (st : St) (d : ℚ)
    (f : Feed) (hmr : p.maxReq = none)
    (hcmiss : load_api_page env.cache (st.api_pages + 1) = none)
    (hnet : env.net st.start = some (d, some f)) :
    crawl_step env p st = after_parse env p
      { st with api_pages := st.api_pages + 1,
                apiCalls := st.apiCalls ++ [(st.api_pages + 1, st.start)],
                elapsed := st.elapsed + d,
                apiWritten := st.apiWritten ++ [st.api_pages + 1] }
      (st.api_pages + 1) true (parse_api_feed f) := by
  rw [crawl_step]
  simp only [hcmiss, hnet, hmr, slow_check]
  simp

/-- The network trace of a drift-free crawl: `m` consecutive page fetches
starting after page `j`, as (page index, start offset) pairs. -/
def pageTrace (j : Nat) : Nat → List (Nat × Nat)
  | 0 => []
  | m + 1 => (j + 1, PAGE_SIZE * j) :: pageTrace (j + 1) m

theorem pageTrace_snd (m : Nat) : ∀ j,
    (pageTrace j m).map Prod.snd = (List.range m).map (fun i => PAGE_SIZE * (j + i)) := by
  induction m with
  | zero => intro j; rfl
  | succ m ih =>
    intro j
    rw [pageTrace, List.map_cons, ih (j + 1), List.range_succ_eq_map,
      List.map_cons, List.map_map]
    refine congrArg₂ _ (by simp only [PAGE_SIZE]; omega) ?_
    apply List.map_congr_left
    intro i _
    simp only [Function.comp, PAGE_SIZE]
    omega

theorem pageTrace_length (m : Nat) : ∀ j, (pageTrace j m).length = m := by
  induction m with
  | zero => intro j; rfl
  | succ m ih =>
    intro j
    rw [pageTrace, List.length_cons, ih (j + 1)]

/-- Existential form of `crawl_step_fetch`, exposing the fetched page's
state only through the fields the termination argument needs. -/
theorem crawl_step_fetch_ex (env : Env) (p : Params) (st : St) (d : ℚ)
    (f : Feed) (hmr : p.maxReq = none)
    (hcmiss : load_api_page env.cache (st.api_pages + 1) = none)
    (hnet : env.net st.start = some (d, some f)) :
    ∃ stA, crawl_step env p st
        = after_parse env p stA (st.api_pages + 1) true (parse_api_feed f)
      ∧ stA.start = st.start ∧ stA.api_pages = st.api_pages + 1
      ∧ stA.total_results = st.total_results
      ∧ stA.apiCalls = st.apiCalls ++ [(st.api_pages + 1, st.start)]
      ∧ stA.apiWritten = st.apiWritten ++ [st.api_pages + 1] :=
  ⟨_, crawl_step_fetch env p st d f hmr hcmiss hnet, rfl, rfl, rfl, rfl, rfl⟩

theorem c5_loop (env : Env) (p : Params) (T : Nat)
    (hmr : p.maxReq = none) (hmt : p.maxTotal = none)
    (hh : ∀ id, (env.htmlNet id).isSome = true)
    (hc : ∀ j, load_api_page env.cache j = none)
    (hnet : ∀ i, PAGE_SIZE * i < T →
      ∃ d f, env.net (PAGE_SIZE * i) = some (d, some f)
        ∧ (parse_api_feed f).1 = (T : Int)
        ∧ (parse_api_feed f).2.length = min PAGE_SIZE (T - PAGE_SIZE * i)) :
    ∀ n j st, 1 ≤ j → PAGE_SIZE * j < T →
      st.api_pages = j → st.start = PAGE_SIZE * j →
      st.total_results = (T : Int) →
      (T + 49) / 50 ≤ j + n →
      ∃ stf, crawl_run env p n st = .finished stf
        ∧ stf.api_pages = (T + 49) / 50
        ∧ stf.apiCalls = st.apiCalls ++ pageTrace j ((T + 49) / 50 - j) := by
  intro n
  induction n with
  | zero =>
    intro j st _ h2 _ _ _ hfuel
    exfalso
    simp only [PAGE_SIZE] at h2
    omega
  | succ n ih =>
    intro j st hj1 hjT hpag hstart htot hfuel
    obtain ⟨d, f, hnetj, hft, hflen⟩ := hnet j hjT
    have hne : (parse_api_feed f).2 ≠ [] := by
      intro hnil
      rw [hnil] at hflen
      simp only [List.length_nil, PAGE_SIZE] at hflen
      simp only [PAGE_SIZE] at hjT
      omega
    have hnet' : env.net st.start = some (d, some f) := by rw [hstart]; exact hnetj
    obtain ⟨stA, hstep, haS, haP, haT, haA, haW⟩ :=
      crawl_step_fetch_ex env p st d f hmr (hc (st.api_pages + 1)) hnet'
    obtain ⟨st', hor, hS, hP, hT, hA, hW, hiff⟩ :=
      after_parse_ok env p stA (st.api_pages + 1) true (parse_api_feed f)
        hmr hmt hh hne
    have hpagene1 : ¬(st.api_pages + 1 = 1 ∧ (parse_api_feed f).1 ≠ 0) := by
      intro ⟨h1, _⟩
      rw [hpag] at h1
      omega
    rw [if_neg hpagene1] at hT hiff
    rw [haT, htot] at hT
    rw [haS, hstart] at hiff
    rw [haT, htot] at hiff
    have hS' : st'.start = PAGE_SIZE * (j + 1) := by
      rw [hS, haS, hstart]
      simp only [PAGE_SIZE]
      omega
    have hP' : st'.api_pages = j + 1 := by
      rw [hP, haP, hpag]
    have hA' : st'.apiCalls = st.apiCalls ++ [(j + 1, PAGE_SIZE * j)] := by
      rw [hA, haA, hpag, hstart]
    by_cases hcond : (T : Int) ≠ 0
        ∧ ((PAGE_SIZE * j + PAGE_SIZE : Nat) : Int) ≥ (T : Int)
    · have hstop := hiff.mpr hcond
      have hpages_eq : j + 1 = (T + 49) / 50 := by
        obtain ⟨_, hb⟩ := hcond
        simp only [PAGE_SIZE] at hb hjT
        omega
      refine ⟨st', ?_, by rw [hP', hpages_eq], ?_⟩
      · rw [crawl_run, hstep, hstop]
      · have hm1 : (T + 49) / 50 - j = 1 := by omega
        rw [hA', hm1, pageTrace, pageTrace]
    · have hcont : crawl_step env p st = .cont st' := by
        rcases hor with hstop | hcont
        · exact absurd (hiff.mp hstop) hcond
        · rw [hstep]; exact hcont
      have hTpos : (T : Int) ≠ 0 := by
        simp only [PAGE_SIZE] at hjT
        omega
      have hlt : PAGE_SIZE * (j + 1) < T := by
        by_contra hge
        apply hcond
        refine ⟨hTpos, ?_⟩
        simp only [PAGE_SIZE] at hge ⊢
        omega
      obtain ⟨stf, hrun, hpages, htrace⟩ :=
        ih (j + 1) st' (by omega) hlt hP' hS' hT
          (by simp only [PAGE_SIZE] at hlt; omega)
      refine ⟨stf, ?_, hpages, ?_⟩
      · rw [crawl_run, hcont]
        exact hrun
      · rw [htrace, hA']
        have hm : (T + 49) / 50 - j = ((T + 49) / 50 - (j + 1)) + 1 := by
          simp only [PAGE_SIZE] at hjT
          omega
        rw [hm, pageTrace, List.append_assoc]
        rfl

theorem range_mul_split (m : Nat) (hm : 1 ≤ m) :
    (List.range m).map (fun i => PAGE_SIZE * i)
      = 0 :: (List.range (m - 1)).map (fun i => PAGE_SIZE * (1 + i)) := by
  obtain ⟨k, rfl⟩ : ∃ k, m = k + 1 := ⟨m - 1, by omega⟩
  rw [List.range_succ_eq_map, List.map_cons, List.map_map]
  simp only [Nat.add_sub_cancel]
  refine congrArg₂ _ (by simp) ?_
  apply List.map_congr_left
  intro i _
  simp only [Function.comp, PAGE_SIZE]
  omega

/-- C5 (amended): for a drift-free feed declaring total `T` on page 1, a
cold crawl with no budgets and a reliable document oracle terminates after
exactly `max 1 ⌈T / P⌉` page fetches, at offsets `0, P, 2P, …` — the
`max 1` because for `T = 0` the crawl still needs one probe fetch of
page 1 before it can stop, where the claim's formula `⌈T/P⌉` says zero. -/
theorem c5_termination_amended (env : Env) (p : Params) (T fuel : Nat)
    (hmr : p.maxReq = none) (hmt : p.maxTotal = none)
    (hh : ∀ id, (env.htmlNet id).isSome = true)
    (hc : ∀ j, load_api_page env.cache j = none)
    (hnet : ∀ i, PAGE_SIZE * i < T ∨ i = 0 →
      ∃ d f, env.net (PAGE_SIZE * i) = some (d, some f)
        ∧ (parse_api_feed f).1 = (T : Int)
        ∧ (parse_api_feed f).2.length = min PAGE_SIZE (T - PAGE_SIZE * i))
    (hfuel : max 1 ((T + 49) / 50) ≤ fuel) :
    ∃ stf, crawl_run env p fuel initSt = .finished stf
      ∧ stf.api_pages = max 1 ((T + 49) / 50)
      ∧ stf.apiCalls.length = max 1 ((T + 49) / 50)
      ∧ stf.apiCalls.map Prod.snd
          = (List.range (max 1 ((T + 49) / 50))).map (fun i => PAGE_SIZE * i) := by
  obtain ⟨n, rfl⟩ : ∃ n, fuel = n + 1 := ⟨fuel - 1, by omega⟩
  obtain ⟨d, f, hnet0, hft0, hflen0⟩ := hnet 0 (Or.inr rfl)
  have hnet' : env.net initSt.start = some (d, some f) := hnet0
  obtain ⟨stA, hstep, haS, haP, haT, haA, haW⟩ :=
    crawl_step_fetch_ex env p initSt d f hmr (hc (initSt.api_pages + 1)) hnet'
  by_cases hT0 : T = 0
  · subst hT0
    have hempty : (parse_api_feed f).2 = [] := by
      rw [← List.length_eq_zero]
      rw [hflen0]
      simp
    have hrun : crawl_run env p (n + 1) initSt = .finished stA := by
      rw [crawl_run, hstep, after_parse, if_pos hempty, if_neg]
      intro ⟨_, hne0⟩
      rw [hft0] at hne0
      simp at hne0
    refine ⟨stA, hrun, ?_, ?_, ?_⟩
    · rw [haP]
      rfl
    · rw [haA]
      rfl
    · rw [haA]
      rfl
  · have hT1 : 1 ≤ T := by omega
    have hne : (parse_api_feed f).2 ≠ [] := by
      intro hnil
      rw [hnil] at hflen0
      simp only [List.length_nil, PAGE_SIZE] at hflen0
      omega
    obtain ⟨st', hor, hS, hP, hT, hA, hW, hiff⟩ :=
      after_parse_ok env p stA (initSt.api_pages + 1) true (parse_api_feed f)
        hmr hmt hh hne
    have hcond1 : initSt.api_pages + 1 = 1 ∧ (parse_api_feed f).1 ≠ 0 := by
      refine ⟨rfl, ?_⟩
      rw [hft0]
      simp only [ne_eq, Nat.cast_eq_zero]
      omega
    rw [if_pos hcond1] at hT hiff
    rw [hft0] at hT hiff
    have hS' : st'.start = PAGE_SIZE * 1 := by
      rw [hS, haS]
      rfl
    have hP' : st'.api_pages = 1 := by
      rw [hP, haP]
      rfl
    have hA' : st'.apiCalls = [(1, 0)] := by
      rw [hA, haA]
      rfl
    rw [show stA.start = 0 from haS] at hiff
    by_cases hcond : (T : Int) ≠ 0 ∧ (((0 + PAGE_SIZE : Nat)) : Int) ≥ (T : Int)
    · have hstop := hiff.mpr hcond
      have hceil : max 1 ((T + 49) / 50) = 1 := by
        obtain ⟨_, hb⟩ := hcond
        simp only [PAGE_SIZE] at hb
        omega
      refine ⟨st', ?_, by rw [hP', hceil], ?_, ?_⟩
      · rw [crawl_run, hstep, hstop]
      · rw [hA', hceil]
        rfl
      · rw [hA', hceil]
        decide
    · have hgt : PAGE_SIZE * 1 < T := by
        by_contra hge
        apply hcond
        refine ⟨by simp only [ne_eq, Nat.cast_eq_zero]; omega, ?_⟩
        simp only [PAGE_SIZE] at hge ⊢
        omega
      have hcont : crawl_step env p initSt = .cont st' := by
        rcases hor with hstop | hcont
        · exact absurd (hiff.mp hstop) hcond
        · rw [hstep]; exact hcont
      have hfuel' : (T + 49) / 50 ≤ 1 + n := by
        simp only [PAGE_SIZE] at hgt
        omega
      obtain ⟨stf, hrun, hpages, htrace⟩ :=
        c5_loop env p T hmr hmt hh hc (fun i hi => hnet i (Or.inl hi)) n 1 st'
          (by omega) hgt hP' hS' hT hfuel'
      have hceil : max 1 ((T + 49) / 50) = (T + 49) / 50 := by
        simp only [PAGE_SIZE] at hgt
        omega
      have hm : (T + 49) / 50 = ((T + 49) / 50 - 1) + 1 := by
        simp only [PAGE_SIZE] at hgt
        omega
      refine ⟨stf, ?_, by rw [hpages, hceil], ?_, ?_⟩
      · rw [crawl_run, hcont]
        exact hrun
      · rw [htrace, hA', hceil, List.length_append, pageTrace_length]
        simp only [List.length_singleton]
        omega
      · rw [htrace, hA', hceil, List.map_append, pageTrace_snd,
          range_mul_split _ (by omega)]
        rfl

/-- A parseable feed document with the given declared-total text and entry
ids, used by the concrete scenarios. -/
def mkFeed (total : String) (ids : List String) : Feed :=
  { totalText := some total.toList,
    entries := ids.map (fun s => { idText := some s.toList, authorNames := [] }) }

/-- Distinct entry ids for page `p` of a synthetic feed. -/
def pageIds (p n : Nat) : List String :=
  (List.range n).map (fun k => "p" ++ toString p ++ "e" ++ toString k)

/-- Scenario A environment: a cold cache and a drift-free feed declaring
120 results, served in pages of 50, 50 and 20 entries at offsets 0, 50
and 100. -/
def envScenarioA : Env :=
  { cache := fun _ => none,
    net := fun off =>
      if off = 0 then some (1, some (mkFeed "120" (pageIds 1 50)))
      else if off = 50 then some (1, some (mkFeed "120" (pageIds 2 50)))
      else if off = 100 then some (1, some (mkFeed "120" (pageIds 3 20)))
      else none,
    htmlCache := fun _ => false,
    htmlNet := fun _ => some (1, ("h".toList)),
    apiSleep := fun _ => 1,
    htmlSleep := fun _ => 1 }

/-- A cold environment whose feed declares zero total results. -/
def envZeroTotal : Env :=
  { cache := fun _ => none,
    net := fun off => if off = 0 then some (1, some (mkFeed "0" [])) else none,
    htmlCache := fun _ => false,
    htmlNet := fun _ => some (1, ("h".toList)),
    apiSleep := fun _ => 1,
    htmlSleep := fun _ => 1 }

/-- The author and budget parameters of the spec's Scenario A. -/
def pSilver : Params :=
  { first_name := "David".toList, last_name := "Silver".toList,
    maxReq := none, maxTotal := none }

/-- C5: the claim quantifies over every declared total `T` and promises
exactly `⌈T/P⌉` page fetches; for `T = 0` that formula gives zero fetches,
but the crawl must fetch page 1 before it can learn the total, so a run
against a drift-free feed declaring 0 performs one page fetch and then
terminates. -/
theorem c5_zero_total_counterexample :
    (runStateOf (crawl_run envZeroTotal pSilver 3 initSt)).apiCalls.length = 1
    ∧ isFinished (crawl_run envZeroTotal pSilver 3 initSt) = true
    ∧ (0 + 49) / 50 = 0 := by
  refine ⟨by decide, by decide, by decide⟩

/-- C5 witness: Scenario A — declared total 120, page size 50 — finishes
normally after exactly 3 page fetches at offsets 0, 50, 100. -/
theorem c5_termination_amended_witness :
    isFinished (crawl_run envScenarioA pSilver 3 initSt) = true
    ∧ (runStateOf (crawl_run envScenarioA pSilver 3 initSt)).api_pages = 3
    ∧ (runStateOf (crawl_run envScenarioA pSilver 3 initSt)).apiCalls.map
        Prod.snd = [0, 50, 100] := by
  obtain ⟨stf, hrun, hp, hlen, hmap⟩ :=
    c5_termination_amended envScenarioA pSilver 120 3 rfl rfl (fun id => rfl)
      (fun j => rfl)
      (by
        intro i hi
        have h3 : i = 0 ∨ i = 1 ∨ i = 2 := by
          rcases hi with hi | hi
          · simp only [PAGE_SIZE] at hi
            omega
          · omega
        rcases h3 with rfl | rfl | rfl
        · exact ⟨1, mkFeed "120" (pageIds 1 50), rfl, by decide, by decide⟩
        · exact ⟨1, mkFeed "120" (pageIds 2 50), rfl, by decide, by decide⟩
        · exact ⟨1, mkFeed "120" (pageIds 3 20), rfl, by decide, by decide⟩)
      (by decide)
  rw [hrun]
  refine ⟨rfl, ?_, ?_⟩
  · rw [show runStateOf (RunR.finished stf) = stf from rfl, hp]
    decide
  · rw [show runStateOf (RunR.finished stf) = stf from rfl, hmap]
    decide

/-- Characterisation of `process_entry` on the no-budget, reliable-oracle
path: it cannot raise, control fields are untouched, and the seen set and
match counter evolve by the dedup/match rule only. -/
theorem process_entry_chr (env : Env) (p : Params) (st : St) (e : Entry)
    (hmr : p.maxReq = none) (hh : ∀ id, (env.htmlNet id).isSome = true) :
    ∃ st', process_entry env p st e = .ok st'
      ∧ ctrlEq st st'
      ∧ st'.seen = (if st.seen.contains e.arxiv_id then st.seen
          else st.seen ++ [e.arxiv_id])
      ∧ st'.matched = (if st.seen.contains e.arxiv_id then st.matched
          else if author_matches p.first_name p.last_name e.authors
            then st.matched + 1 else st.matched) := by
  rw [process_entry]
  by_cases hc : st.seen.contains e.arxiv_id
  · rw [if_pos hc]
    exact ⟨st, rfl, ctrlEq_refl st, by rw [if_pos hc], by rw [if_pos hc]⟩
  · rw [if_neg hc]
    by_cases hm : author_matches p.first_name p.last_name e.authors
    · rw [if_pos hm]
      by_cases hp : html_present env
          { st with seen := st.seen ++ [e.arxiv_id],
                    matched := st.matched + 1,
                    matchedIds := st.matchedIds ++ [e.arxiv_id] }
          (sanitize_id e.arxiv_id)
      · rw [if_pos hp]
        exact ⟨_, rfl, ⟨rfl, rfl, rfl, rfl, rfl⟩,
          by rw [if_neg hc], by rw [if_neg hc, if_pos hm]⟩
      · rw [if_neg hp]
        obtain ⟨pr, hpr⟩ := Option.isSome_iff_exists.mp (hh e.arxiv_id)
        rw [hpr]
        have hslow : slow_check p.maxReq pr.1 = false := by
          rw [hmr, slow_check]
        obtain ⟨d, b⟩ := pr
        simp only [hslow, Bool.false_eq_true, if_false]
        exact ⟨_, rfl, ⟨rfl, rfl, rfl, rfl, rfl⟩,
          by rw [if_neg hc], by rw [if_neg hc, if_pos hm]⟩
    · rw [if_neg hm]
      exact ⟨_, rfl, ⟨rfl, rfl, rfl, rfl, rfl⟩,
        by rw [if_neg hc], by rw [if_neg hc, if_neg hm]⟩

/-- Lockstep simulation of entry processing in two environments that share
nothing but a reliable document oracle: equal seen sets and match counts
stay equal, and control fields stay put on both sides. -/
theorem process_entries_sim (envW envC : Env) (p : Params)
    (hmr : p.maxReq = none)
    (hh1 : ∀ id, (envW.htmlNet id).isSome = true)
    (hh2 : ∀ id, (envC.htmlNet id).isSome = true) :
    ∀ es st1 st2, st1.seen = st2.seen → st1.matched = st2.matched →
      ∃ st1' st2', process_entries envW p st1 es = .ok st1'
        ∧ process_entries envC p st2 es = .ok st2'
        ∧ ctrlEq st1 st1' ∧ ctrlEq st2 st2'
        ∧ st1'.seen = st2'.seen ∧ st1'.matched = st2'.matched := by
  intro es
  induction es with
  | nil =>
    intro st1 st2 hseen hmat
    exact ⟨st1, st2, rfl, rfl, ctrlEq_refl st1, ctrlEq_refl st2, hseen, hmat⟩
  | cons e es ih =>
    intro st1 st2 hseen hmat
    obtain ⟨u1, hpe1, hctrl1, hseen1, hmat1⟩ :=
      process_entry_chr envW p st1 e hmr hh1
    obtain ⟨u2, hpe2, hctrl2, hseen2, hmat2⟩ :=
      process_entry_chr envC p st2 e hmr hh2
    have hseenU : u1.seen = u2.seen := by
      rw [hseen1, hseen2, hseen]
    have hmatU : u1.matched = u2.matched := by
      rw [hmat1, hmat2, hseen, hmat]
    obtain ⟨v1, v2, hps1, hps2, hc1, hc2, hsv, hmv⟩ := ih u1 u2 hseenU hmatU
    refine ⟨v1, v2, ?_, ?_, ctrlEq_trans hctrl1 hc1, ctrlEq_trans hctrl2 hc2,
      hsv, hmv⟩
    · rw [process_entries, hpe1]
      exact hps1
    · rw [process_entries, hpe2]
      exact hps2

/-- The loop-control fields two lockstep crawls agree on. -/
def Sim5 (st1 st2 : St) : Prop :=
  st1.start = st2.start ∧ st1.api_pages = st2.api_pages
  ∧ st1.total_results = st2.total_results ∧ st1.seen = st2.seen
  ∧ st1.matched = st2.matched

/-- Two `after_parse` calls on the same parsed page, from `Sim5`-related
states (one from cache, one from the network), take the same branch and
stay `Sim5`-related. -/
theorem after_parse_sim (envW envC : Env) (p : Params) (stA1 stA2 : St)
    (pages : Nat) (f1 f2 : Bool) (parsed : Int × List Entry)
    (hmr : p.maxReq = none) (hmt : p.maxTotal = none)
    (hh1 : ∀ id, (envW.htmlNet id).isSome = true)
    (hh2 : ∀ id, (envC.htmlNet id).isSome = true)
    (hsim : Sim5 stA1 stA2) :
    (∃ u1 u2, after_parse envW p stA1 pages f1 parsed = .stop u1
      ∧ after_parse envC p stA2 pages f2 parsed = .stop u2
      ∧ u1.api_pages = stA1.api_pages ∧ u2.api_pages = stA2.api_pages)
    ∨ (∃ u1 u2, after_parse envW p stA1 pages f1 parsed = .cont u1
      ∧ after_parse envC p stA2 pages f2 parsed = .cont u2
      ∧ Sim5 u1 u2 ∧ u1.start = stA1.start + PAGE_SIZE
      ∧ u1.api_pages = stA1.api_pages) := by
  obtain ⟨hS, hP, hT, hseen, hmat⟩ := hsim
  by_cases hne : parsed.2 = []
  · left
    refine ⟨_, _, by rw [after_parse, if_pos hne], by rw [after_parse, if_pos hne],
      ?_, ?_⟩
    · split
      · rfl
      · rfl
    · split
      · rfl
      · rfl
  · have hw1seen : (if pages = 1 ∧ parsed.1 ≠ 0
        then { stA1 with total_results := parsed.1 } else stA1).seen
        = stA1.seen := by
      split
      · rfl
      · rfl
    have hw2seen : (if pages = 1 ∧ parsed.1 ≠ 0
        then { stA2 with total_results := parsed.1 } else stA2).seen
        = stA2.seen := by
      split
      · rfl
      · rfl
    have hw1mat : (if pages = 1 ∧ parsed.1 ≠ 0
        then { stA1 with total_results := parsed.1 } else stA1).matched
        = stA1.matched := by
      split
      · rfl
      · rfl
    have hw2mat : (if pages = 1 ∧ parsed.1 ≠ 0
        then { stA2 with total_results := parsed.1 } else stA2).matched
        = stA2.matched := by
      split
      · rfl
      · rfl
    have hw1S : (if pages = 1 ∧ parsed.1 ≠ 0
        then { stA1 with total_results := parsed.1 } else stA1).start
        = stA1.start := by
      split
      · rfl
      · rfl
    have hw2S : (if pages = 1 ∧ parsed.1 ≠ 0
        then { stA2 with total_results := parsed.1 } else stA2).start
        = stA2.start := by
      split
      · rfl
      · rfl
    have hw1P : (if pages = 1 ∧ parsed.1 ≠ 0
        then { stA1 with total_results := parsed.1 } else stA1).api_pages
        = stA1.api_pages := by
      split
      · rfl
      · rfl
    have hw2P : (if pages = 1 ∧ parsed.1 ≠ 0
        then { stA2 with total_results := parsed.1 } else stA2).api_pages
        = stA2.api_pages := by
      split
      · rfl
      · rfl
    have hwT : (if pages = 1 ∧ parsed.1 ≠ 0
        then { stA1 with total_results := parsed.1 } else stA1).total_results
        = (if pages = 1 ∧ parsed.1 ≠ 0
        then { stA2 with total_results := parsed.1 } else stA2).total_results := by
      split
      · rfl
      · exact hT
    obtain ⟨v1, v2, hps1, hps2, hc1, hc2, hsv, hmv⟩ :=
      process_entries_sim envW envC p hmr hh1 hh2 parsed.2
        (if pages = 1 ∧ parsed.1 ≠ 0
          then { stA1 with total_results := parsed.1 } else stA1)
        (if pages = 1 ∧ parsed.1 ≠ 0
          then { stA2 with total_results := parsed.1 } else stA2)
        (by rw [hw1seen, hw2seen, hseen]) (by rw [hw1mat, hw2mat, hmat])
    obtain ⟨hv1S, hv1P, hv1T, _, _⟩ := hc1
    obtain ⟨hv2S, hv2P, hv2T, _, _⟩ := hc2
    have hvS : v1.start = v2.start := by
      rw [hv1S, hv2S, hw1S, hw2S, hS]
    have hvT : v1.total_results = v2.total_results := by
      rw [hv1T, hv2T, hwT]
    rw [after_parse, if_neg hne, hps1]
    rw [after_parse, if_neg hne, hps2]
    dsimp only
    by_cases hcond : v1.total_results ≠ 0
        ∧ ((v1.start + PAGE_SIZE : Nat) : Int) ≥ v1.total_results
    · left
      have hcond2 : v2.total_results ≠ 0
          ∧ ((v2.start + PAGE_SIZE : Nat) : Int) ≥ v2.total_results := by
        rw [← hvS, ← hvT]
        exact hcond
      refine ⟨_, _, by rw [if_pos hcond], by rw [if_pos hcond2], ?_, ?_⟩
      · simp only
        rw [hv1P, hw1P]
      · simp only
        rw [hv2P, hw2P]
    · right
      have hcond2 : ¬(v2.total_results ≠ 0
          ∧ ((v2.start + PAGE_SIZE : Nat) : Int) ≥ v2.total_results) := by
        rw [← hvS, ← hvT]
        exact hcond
      have hslow1 : slow_check p.maxTotal
          ({ v1 with start := v1.start + PAGE_SIZE }).elapsed = false := by
        rw [hmt, slow_check]
      have hslow2 : slow_check p.maxTotal
          ({ v2 with start := v2.start + PAGE_SIZE }).elapsed = false := by
        rw [hmt, slow_check]
      rw [if_neg hcond, hslow1]
      rw [if_neg hcond2, hslow2]
      simp only [Bool.false_eq_true, if_false]
      have hfin : ∀ G1 G2 : Prop,
          (∀ u1 u2 : St, u1.start = v1.start + PAGE_SIZE →
            u1.api_pages = v1.api_pages → u1.total_results = v1.total_results →
            u1.seen = v1.seen → u1.matched = v1.matched →
            u2.start = v2.start + PAGE_SIZE → u2.api_pages = v2.api_pages →
            u2.total_results = v2.total_results → u2.seen = v2.seen →
            u2.matched = v2.matched →
            Sim5 u1 u2 ∧ u1.start = stA1.start + PAGE_SIZE
              ∧ u1.api_pages = stA1.api_pages) := by
        intro G1 G2 u1 u2 e1 e2 e3 e4 e5 g1 g2 g3 g4 g5
        refine ⟨⟨?_, ?_, ?_, ?_, ?_⟩, ?_, ?_⟩
        · rw [e1, g1, hvS]
        · rw [e2, g2, hv1P, hv2P, hw1P, hw2P, hP]
        · rw [e3, g3, hvT]
        · rw [e4, g4, hsv]
        · rw [e5, g5, hmv]
        · rw [e1, hv1S, hw1S]
        · rw [e2, hv1P, hw1P]
      cases f1 with
      | true =>
        cases f2 with
        | true =>
          exact ⟨_, _, rfl, rfl,
            hfin True True _ _ rfl rfl rfl rfl rfl rfl rfl rfl rfl rfl⟩
        | false =>
          exact ⟨_, _, rfl, rfl,
            hfin True True _ _ rfl rfl rfl rfl rfl rfl rfl rfl rfl rfl⟩
      | false =>
        cases f2 with
        | true =>
          exact ⟨_, _, rfl, rfl,
            hfin True True _ _ rfl rfl rfl rfl rfl rfl rfl rfl rfl rfl⟩
        | false =>
          exact ⟨_, _, rfl, rfl,
            hfin True True _ _ rfl rfl rfl rfl rfl rfl rfl rfl rfl rfl⟩

/-- One `crawl_step` iteration on a cache hit: the page is reused with no
network call and no write. -/
theorem crawl_step_hit (env : Env) (p : Params) (st : St)
    (parsed : Int × List Entry)
    (hhit : load_api_page env.cache (st.api_pages + 1) = some parsed) :
    crawl_step env p st
      = after_parse env p { st with api_pages := st.api_pages + 1 }
          (st.api_pages + 1) false parsed := by
  rw [crawl_step]
  simp only [hhit]

/-- Existential form of `crawl_step_hit` exposing the relevant fields. -/
theorem crawl_step_hit_ex (env : Env) (p : Params) (st : St)
    (parsed : Int × List Entry)
    (hhit : load_api_page env.cache (st.api_pages + 1) = some parsed) :
    ∃ stA, crawl_step env p st
        = after_parse env p stA (st.api_pages + 1) false parsed
      ∧ stA.start = st.start ∧ stA.api_pages = st.api_pages + 1
      ∧ stA.total_results = st.total_results ∧ stA.seen = st.seen
      ∧ stA.matched = st.matched ∧ stA.apiCalls = st.apiCalls :=
  ⟨_, crawl_step_hit env p st parsed hhit, rfl, rfl, rfl, rfl, rfl, rfl⟩

/-- Existential form of `crawl_step_fetch` exposing the simulation
fields. -/
theorem crawl_step_fetch_ex2 (env : Env) (p : Params) (st : St) (d : ℚ)
    (f : Feed) (hmr : p.maxReq = none)
    (hcmiss : load_api_page env.cache (st.api_pages + 1) = none)
    (hnet : env.net st.start = some (d, some f)) :
    ∃ stA, crawl_step env p st
        = after_parse env p stA (st.api_pages + 1) true (parse_api_feed f)
      ∧ stA.start = st.start ∧ stA.api_pages = st.api_pages + 1
      ∧ stA.total_results = st.total_results ∧ stA.seen = st.seen
      ∧ stA.matched = st.matched
      ∧ stA.apiCalls = st.apiCalls ++ [(st.api_pages + 1, st.start)] :=
  ⟨_, crawl_step_fetch env p st d f hmr hcmiss hnet, rfl, rfl, rfl, rfl, rfl,
    rfl⟩

/-- One `crawl_step` iteration whose network fetch exhausts its retries:
`DownloadError` propagates, with the call recorded and nothing written. -/
theorem crawl_step_neterr (env : Env) (p : Params) (st : St)
    (hcmiss : load_api_page env.cache (st.api_pages + 1) = none)
    (hnet : env.net st.start = none) :
    crawl_step env p st = .fail .download
      { st with api_pages := st.api_pages + 1,
                apiCalls := st.apiCalls ++ [(st.api_pages + 1, st.start)] } := by
  rw [crawl_step]
  simp only [hcmiss, hnet]

/-- One `crawl_step` iteration whose fetched body is not parseable XML:
the artifact is still written (write precedes parse), then `DownloadError`
propagates. -/
theorem crawl_step_parseerr (env : Env) (p : Params) (st : St) (d : ℚ)
    (hmr : p.maxReq = none)
    (hcmiss : load_api_page env.cache (st.api_pages + 1) = none)
    (hnet : env.net st.start = some (d, none)) :
    crawl_step env p st = .fail .download
      { st with api_pages := st.api_pages + 1,
                apiCalls := st.apiCalls ++ [(st.api_pages + 1, st.start)],
                elapsed := st.elapsed + d,
                apiWritten := st.apiWritten ++ [st.api_pages + 1] } := by
  rw [crawl_step]
  simp only [hcmiss, hnet, hmr, slow_check]
  simp

/-- The lockstep relation between a warm (cache-primed) and a cold crawl:
the control fields agree and the offset is aligned with the page count. -/
def SimFull (st1 st2 : St) : Prop :=
  Sim5 st1 st2 ∧ st1.start = PAGE_SIZE * st1.api_pages

/-- One iteration of the warm and the cold crawl from `SimFull`-related
states takes the same branch — continue, break, or raise the same error —
and preserves `SimFull` on continue and page-count agreement always. -/
theorem crawl_step_sim (envW envC : Env) (p : Params) (k : Nat)
    (hmr : p.maxReq = none) (hmt : p.maxTotal = none)
    (hh1 : ∀ id, (envW.htmlNet id).isSome = true)
    (hh2 : ∀ id, (envC.htmlNet id).isSome = true)
    (hnetEq : envC.net = envW.net)
    (hw : ∀ i, 1 ≤ i → i ≤ k → ∃ d f,
        envW.net (PAGE_SIZE * (i - 1)) = some (d, some f)
        ∧ envW.cache i = some (some f))
    (hwmiss : ∀ j, k < j → load_api_page envW.cache j = none)
    (hcold : ∀ j, load_api_page envC.cache j = none) :
    ∀ st1 st2, SimFull st1 st2 →
      (∃ u1 u2, crawl_step envW p st1 = .cont u1
        ∧ crawl_step envC p st2 = .cont u2 ∧ SimFull u1 u2)
      ∨ (∃ u1 u2, crawl_step envW p st1 = .stop u1
        ∧ crawl_step envC p st2 = .stop u2 ∧ u1.api_pages = u2.api_pages)
      ∨ (∃ e u1 u2, crawl_step envW p st1 = .fail e u1
        ∧ crawl_step envC p st2 = .fail e u2 ∧ u1.api_pages = u2.api_pages) := by
  intro st1 st2 hsimF
  obtain ⟨⟨hS, hP, hT, hseen, hmat⟩, halign⟩ := hsimF
  have hmiss2 : load_api_page envC.cache (st2.api_pages + 1) = none :=
    hcold _
  by_cases hk : st1.api_pages + 1 ≤ k
  · obtain ⟨d, f, hnet, hcache⟩ := hw (st1.api_pages + 1) (by omega) hk
    have hnet1 : envW.net (PAGE_SIZE * st1.api_pages) = some (d, some f) := by
      have heq : st1.api_pages + 1 - 1 = st1.api_pages := by omega
      rwa [heq] at hnet
    have hhit : load_api_page envW.cache (st1.api_pages + 1)
        = some (parse_api_feed f) := by
      rw [load_api_page, hcache]
    obtain ⟨stA1, hstep1, ha1S, ha1P, ha1T, ha1seen, ha1mat, _⟩ :=
      crawl_step_hit_ex envW p st1 _ hhit
    have hnet2 : envC.net st2.start = some (d, some f) := by
      rw [hnetEq, ← hS, halign]
      exact hnet1
    obtain ⟨stA2, hstep2, ha2S, ha2P, ha2T, ha2seen, ha2mat, _⟩ :=
      crawl_step_fetch_ex2 envC p st2 d f hmr hmiss2 hnet2
    rw [← hP] at hstep2
    have hsimA : Sim5 stA1 stA2 :=
      ⟨by rw [ha1S, ha2S, hS], by rw [ha1P, ha2P, hP],
        by rw [ha1T, ha2T, hT], by rw [ha1seen, ha2seen, hseen],
        by rw [ha1mat, ha2mat, hmat]⟩
    rcases after_parse_sim envW envC p stA1 stA2 (st1.api_pages + 1) false true
        (parse_api_feed f) hmr hmt hh1 hh2 hsimA with
      ⟨u1, u2, he1, he2, hu1P, hu2P⟩ | ⟨u1, u2, he1, he2, hsimU, huS, huP⟩
    · right; left
      exact ⟨u1, u2, by rw [hstep1]; exact he1, by rw [hstep2]; exact he2,
        by rw [hu1P, hu2P, ha1P, ha2P, hP]⟩
    · left
      refine ⟨u1, u2, by rw [hstep1]; exact he1, by rw [hstep2]; exact he2,
        hsimU, ?_⟩
      rw [huS, huP, ha1S, ha1P, halign]
      simp only [PAGE_SIZE]
      ring
  · have hmiss1 : load_api_page envW.cache (st1.api_pages + 1) = none :=
      hwmiss _ (by omega)
    cases hnet : envW.net st1.start with
    | none =>
      right; right
      have hnet2 : envC.net st2.start = none := by
        rw [hnetEq, ← hS]
        exact hnet
      refine ⟨.download, _, _, crawl_step_neterr envW p st1 hmiss1 hnet,
        crawl_step_neterr envC p st2 hmiss2 hnet2, ?_⟩
      simp only
      rw [hP]
    | some pr =>
      obtain ⟨d, doc⟩ := pr
      have hnet2 : envC.net st2.start = some (d, doc) := by
        rw [hnetEq, ← hS]
        exact hnet
      cases doc with
      | none =>
        right; right
        refine ⟨.download, _, _,
          crawl_step_parseerr envW p st1 d hmr hmiss1 hnet,
          crawl_step_parseerr envC p st2 d hmr hmiss2 hnet2, ?_⟩
        simp only
        rw [hP]
      | some f =>
        obtain ⟨stA1, hstep1, ha1S, ha1P, ha1T, ha1seen, ha1mat, _⟩ :=
          crawl_step_fetch_ex2 envW p st1 d f hmr hmiss1 hnet
        obtain ⟨stA2, hstep2, ha2S, ha2P, ha2T, ha2seen, ha2mat, _⟩ :=
          crawl_step_fetch_ex2 envC p st2 d f hmr hmiss2 hnet2
        rw [← hP] at hstep2
        have hsimA : Sim5 stA1 stA2 :=
          ⟨by rw [ha1S, ha2S, hS], by rw [ha1P, ha2P, hP],
            by rw [ha1T, ha2T, hT], by rw [ha1seen, ha2seen, hseen],
            by rw [ha1mat, ha2mat, hmat]⟩
        rcases after_parse_sim envW envC p stA1 stA2 (st1.api_pages + 1) true
            true (parse_api_feed f) hmr hmt hh1 hh2 hsimA with
          ⟨u1, u2, he1, he2, hu1P, hu2P⟩ | ⟨u1, u2, he1, he2, hsimU, huS, huP⟩
        · right; left
          exact ⟨u1, u2, by rw [hstep1]; exact he1, by rw [hstep2]; exact he2,
            by rw [hu1P, hu2P, ha1P, ha2P, hP]⟩
        · left
          refine ⟨u1, u2, by rw [hstep1]; exact he1,
            by rw [hstep2]; exact he2, hsimU, ?_⟩
          rw [huS, huP, ha1S, ha1P, halign]
          simp only [PAGE_SIZE]
          ring

/-- Lockstep simulation of whole runs: a warm and a cold crawl reach the
same page count and the same termination kind. -/
theorem crawl_run_sim (envW envC : Env) (p : Params) (k : Nat)
    (hmr : p.maxReq = none) (hmt : p.maxTotal = none)
    (hh1 : ∀ id, (envW.htmlNet id).isSome = true)
    (hh2 : ∀ id, (envC.htmlNet id).isSome = true)
    (hnetEq : envC.net = envW.net)
    (hw : ∀ i, 1 ≤ i → i ≤ k → ∃ d f,
        envW.net (PAGE_SIZE * (i - 1)) = some (d, some f)
        ∧ envW.cache i = some (some f))
    (hwmiss : ∀ j, k < j → load_api_page envW.cache j = none)
    (hcold : ∀ j, load_api_page envC.cache j = none) :
    ∀ fuel st1 st2, SimFull st1 st2 →
      (runStateOf (crawl_run envW p fuel st1)).api_pages
        = (runStateOf (crawl_run envC p fuel st2)).api_pages
      ∧ isFinished (crawl_run envW p fuel st1)
        = isFinished (crawl_run envC p fuel st2) := by
  intro fuel
  induction fuel with
  | zero =>
    intro st1 st2 hsim
    exact ⟨hsim.1.2.1, rfl⟩
  | succ fuel ih =>
    intro st1 st2 hsim
    rcases crawl_step_sim envW envC p k hmr hmt hh1 hh2 hnetEq hw hwmiss hcold
        st1 st2 hsim with
      ⟨u1, u2, h1, h2, hsimU⟩ | ⟨u1, u2, h1, h2, hPU⟩ |
      ⟨e, u1, u2, h1, h2, hPU⟩
    · rw [crawl_run, h1, crawl_run, h2]
      exact ih u1 u2 hsimU
    · rw [crawl_run, h1, crawl_run, h2]
      exact ⟨hPU, rfl⟩
    · rw [crawl_run, h1, crawl_run, h2]
      exact ⟨hPU, rfl⟩

theorem process_entry_calls (env : Env) (p : Params) (st : St) (e : Entry) :
    (stOfE (process_entry env p st e)).apiCalls = st.apiCalls := by
  rw [process_entry]
  by_cases hc : st.seen.contains e.arxiv_id
  · rw [if_pos hc]
    rfl
  · rw [if_neg hc]
    by_cases hm : author_matches p.first_name p.last_name e.authors
    · rw [if_pos hm]
      by_cases hp : html_present env
          { st with seen := st.seen ++ [e.arxiv_id],
                    matched := st.matched + 1,
                    matchedIds := st.matchedIds ++ [e.arxiv_id] }
          (sanitize_id e.arxiv_id)
      · rw [if_pos hp]
        rfl
      · rw [if_neg hp]
        cases hnet : env.htmlNet e.arxiv_id with
        | none => rfl
        | some pr =>
          obtain ⟨d0, b0⟩ := pr
          by_cases hs : slow_check p.maxReq d0
          · simp only [hs, if_true]
            rfl
          · simp only [hs, Bool.false_eq_true, if_false]
            rfl
    · rw [if_neg hm]
      rfl

theorem process_entries_calls (env : Env) (p : Params) :
    ∀ es st, (stOfE (process_entries env p st es)).apiCalls = st.apiCalls := by
  intro es
  induction es with
  | nil => intro st; rfl
  | cons e es ih =>
    intro st
    rw [process_entries]
    have h1 := process_entry_calls env p st e
    cases hpe : process_entry env p st e with
    | ok st' =>
      rw [hpe] at h1
      rw [ih st']
      exact h1
    | fail e' st' =>
      rw [hpe] at h1
      exact h1

theorem after_parse_calls (env : Env) (p : Params) (st : St) (pages : Nat)
    (fetched : Bool) (parsed : Int × List Entry) :
    (stOfStep (after_parse env p st pages fetched parsed)).apiCalls
      = st.apiCalls := by
  have hA1 : (if pages = 1 ∧ parsed.1 ≠ 0
      then { st with total_results := parsed.1 } else st).apiCalls
      = st.apiCalls := by
    split
    · rfl
    · rfl
  have h2 := process_entries_calls env p parsed.2
    (if pages = 1 ∧ parsed.1 ≠ 0
      then { st with total_results := parsed.1 } else st)
  simp only [after_parse]
  split
  · exact hA1
  · split
    · rename_i e' st' heq
      rw [heq] at h2
      exact h2.trans hA1
    · rename_i st2 heq
      rw [heq] at h2
      simp only [stOfE] at h2
      split
      · exact h2.trans hA1
      · split
        · exact h2.trans hA1
        · split
          · exact h2.trans hA1
          · exact h2.trans hA1

theorem crawl_step_calls (envW : Env) (p : Params) (k : Nat)
    (hmr : p.maxReq = none)
    (hw : ∀ i, 1 ≤ i → i ≤ k → ∃ d f,
        envW.net (PAGE_SIZE * (i - 1)) = some (d, some f)
        ∧ envW.cache i = some (some f)) :
    ∀ st, (∀ pr ∈ st.apiCalls, k < pr.1) →
      ∀ pr ∈ (stOfStep (crawl_step envW p st)).apiCalls, k < pr.1 := by
  intro st hinv
  cases hload : load_api_page envW.cache (st.api_pages + 1) with
  | some parsed =>
    rw [crawl_step_hit envW p st parsed hload]
    intro pr hpr
    rw [after_parse_calls] at hpr
    exact hinv pr hpr
  | none =>
    have hgt : k < st.api_pages + 1 := by
      by_contra hle
      obtain ⟨d, f, _, hcache⟩ := hw (st.api_pages + 1) (by omega) (by omega)
      rw [load_api_page, hcache] at hload
      exact absurd hload (by simp)
    have hmemlem : ∀ pr : Nat × Nat,
        pr ∈ st.apiCalls ++ [(st.api_pages + 1, st.start)] → k < pr.1 := by
      intro pr hpr
      rcases List.mem_append.mp hpr with hpr | hpr
      · exact hinv pr hpr
      · rw [List.mem_singleton] at hpr
        subst hpr
        exact hgt
    cases hnet : envW.net st.start with
    | none =>
      rw [crawl_step_neterr envW p st hload hnet]
      intro pr hpr
      exact hmemlem pr hpr
    | some pr0 =>
      obtain ⟨d, doc⟩ := pr0
      cases doc with
      | none =>
        rw [crawl_step_parseerr envW p st d hmr hload hnet]
        intro pr hpr
        exact hmemlem pr hpr
      | some f =>
        obtain ⟨stA, hstep, _, _, _, _, _, haC⟩ :=
          crawl_step_fetch_ex2 envW p st d f hmr hload hnet
        rw [hstep]
        intro pr hpr
        rw [after_parse_calls, haC] at hpr
        exact hmemlem pr hpr

theorem crawl_run_calls (envW : Env) (p : Params) (k : Nat)
    (hmr : p.maxReq = none)
    (hw : ∀ i, 1 ≤ i → i ≤ k → ∃ d f,
        envW.net (PAGE_SIZE * (i - 1)) = some (d, some f)
        ∧ envW.cache i = some (some f)) :
    ∀ fuel st, (∀ pr ∈ st.apiCalls, k < pr.1) →
      ∀ pr ∈ (runStateOf (crawl_run envW p fuel st)).apiCalls, k < pr.1 := by
  intro fuel
  induction fuel with
  | zero => intro st hinv; exact hinv
  | succ fuel ih =>
    intro st hinv
    have hstep := crawl_step_calls envW p k hmr hw st hinv
    rw [crawl_run]
    cases hs : crawl_step envW p st with
    | cont st' =>
      rw [hs] at hstep
      exact ih st' hstep
    | stop st' =>
      rw [hs] at hstep
      exact hstep
    | fail e st' =>
      rw [hs] at hstep
      exact hstep

/-- C4: idempotent resume.  With pages `1..k` already cached (each holding
exactly what the shared feed serves at the matching offset), no cached
page beyond `k`, no budgets, and a document oracle that always succeeds,
a rerun makes NO page network call for any page index `≤ k` — every call
it performs is for a page `> k` — and it reaches the same page count and
the same termination kind as a cold run over the same feed. -/
theorem c4_resume_idempotent (envW envC : Env) (p : Params) (k fuel : Nat)
    (hmr : p.maxReq = none) (hmt : p.maxTotal = none)
    (hh1 : ∀ id, (envW.htmlNet id).isSome = true)
    (hh2 : ∀ id, (envC.htmlNet id).isSome = true)
    (hnetEq : envC.net = envW.net)
    (hw : ∀ i, 1 ≤ i → i ≤ k → ∃ d f,
        envW.net (PAGE_SIZE * (i - 1)) = some (d, some f)
        ∧ envW.cache i = some (some f))
    (hwmiss : ∀ j, k < j → load_api_page envW.cache j = none)
    (hcold : ∀ j, load_api_page envC.cache j = none) :
    (∀ pr ∈ (runStateOf (crawl_run envW p fuel initSt)).apiCalls, k < pr.1)
    ∧ (runStateOf (crawl_run envW p fuel initSt)).api_pages
        = (runStateOf (crawl_run envC p fuel initSt)).api_pages
    ∧ isFinished (crawl_run envW p fuel initSt)
        = isFinished (crawl_run envC p fuel initSt) := by
  refine ⟨?_, ?_, ?_⟩
  · exact crawl_run_calls envW p k hmr hw fuel initSt (by simp [initSt])
  · exact (crawl_run_sim envW envC p k hmr hmt hh1 hh2 hnetEq hw hwmiss hcold
      fuel initSt initSt ⟨⟨rfl, rfl, rfl, rfl, rfl⟩, rfl⟩).1
  · exact (crawl_run_sim envW envC p k hmr hmt hh1 hh2 hnetEq hw hwmiss hcold
      fuel initSt initSt ⟨⟨rfl, rfl, rfl, rfl, rfl⟩, rfl⟩).2

/-- A warm environment for the C4 witness: page 1 is cached and holds
exactly what the feed serves at offset 0 (declared total 1, one entry). -/
def envWarm : Env :=
  { cache := fun i => if i = 1 then some (some (mkFeed "1" (pageIds 1 1)))
      else none,
    net := fun off => if off = 0 then some (1, some (mkFeed "1" (pageIds 1 1)))
      else none,
    htmlCache := fun _ => false,
    htmlNet := fun _ => some (1, ("h".toList)),
    apiSleep := fun _ => 1,
    htmlSleep := fun _ => 1 }

/-- The cold twin of `envWarm`: same feed, empty page cache. -/
def envCold : Env :=
  { envWarm with cache := fun _ => none }

/-- C4 witness: on the concrete one-page feed, the warm rerun makes no
network call for the cached page 1 yet reaches the same page count and
the same normal termination as the cold run. -/
theorem c4_resume_idempotent_witness :
    ((1, 0) ∈ (runStateOf (crawl_run envWarm pSilver 3 initSt)).apiCalls
      → False)
    ∧ (runStateOf (crawl_run envWarm pSilver 3 initSt)).api_pages
        = (runStateOf (crawl_run envCold pSilver 3 initSt)).api_pages
    ∧ isFinished (crawl_run envWarm pSilver 3 initSt)
        = isFinished (crawl_run envCold pSilver 3 initSt) := by
  have h := c4_resume_idempotent envWarm envCold pSilver 1 3 rfl rfl
    (fun _ => rfl) (fun _ => rfl) rfl
    (by
      intro i h1 h2
      have hi : i = 1 := by omega
      subst hi
      exact ⟨1, mkFeed "1" (pageIds 1 1), rfl, rfl⟩)
    (by
      intro j hj
      have hj' : j ≠ 1 := by omega
      rw [load_api_page]
      simp [envWarm, hj'])
    (fun j => rfl)
  exact ⟨fun hmem => absurd (h.1 (1, 0) hmem) (by omega), h.2.1, h.2.2⟩

end GetArxiv
